import Mathlib

/-!
Verification of the tic-tac-toe engine in `src/resources/js/main.js`.

The board is a sequence of 9 strings: `""` marks an empty slot, otherwise the
cell holds a player's symbol (the engine uses `"O"` for the human and `"X"`
for the computer).  The engine state is the board plus the `gameOver` flag.
Mutation in the JavaScript source (the backtracking search mutates and then
restores the shared board) is embedded as explicit state passing: `minimax`
takes the board and returns the (result, board) pair, and we prove that the
returned board always equals the one passed in.
-/

namespace TTT

/-- The human player's symbol (`this.humanPlayer = "O"`). -/
def humanPlayer : String := "O"

/-- The computer player's symbol (`this.computerPlayer = "X"`). -/
def computerPlayer : String := "X"

/-- `TicTacToe.MIN` sentinel. -/
def MIN : Int := -1000

/-- `TicTacToe.MAX` sentinel. -/
def MAX : Int := 1000

/-- `TicTacToe.WIN_SCORE`. -/
def WIN_SCORE : Int := 10

/-- `TicTacToe.TIE_SCORE`. -/
def TIE_SCORE : Int := 0

/-- `TicTacToe.LOSE_SCORE`. -/
def LOSE_SCORE : Int := -10

/-- Engine state: the 9-slot board and the `gameOver` flag. -/
structure GameState where
  board : List String
  gameOver : Bool
deriving DecidableEq

/-- `initialize()`: 9 empty slots, `gameOver = false`. -/
def initGame : GameState :=
  ⟨["", "", "", "", "", "", "", "", ""], false⟩

/-- `getAvailableSlots(board)`: indices `i` with `!board[i]`, i.e. the cell is
the empty string, collected in increasing order of `i`. -/
def getAvailableSlots (board : List String) : List Nat :=
  (List.range board.length).filter (fun i => board.getD i "" == "")

/-- `isValidSlot(slot)`: `slot >= 0 && slot < board.length && board[slot] === ""`.
The incoming slot is an arbitrary integer. -/
def isValidSlot (board : List String) (slot : Int) : Bool :=
  decide (0 ≤ slot) && decide (slot < board.length) && (board.getD slot.toNat "" == "")

/-- Result object of `isGameOver`: `{"result": WIN, "player": p, "slots": l}`,
`{"result": TIE}` or `{"result": CONTINUE, "slots": l}`.  The JS constant
`CONTINUE` is spelled `cont` here because `continue` is a Lean keyword. -/
inductive GameResult where
  | win (player : String) (slots : List Nat)
  | tie
  | cont (slots : List Nat)
deriving DecidableEq

/-- The helper `won(slots)` of `isGameOver`:
`slots.every(val === arr[0]) && slots[0] !== ""`. -/
def won (a b c : String) : Bool :=
  (a == a && b == a && c == a) && !(a == "")

/-- The 8 winning lines in exactly the order `isGameOver` scans them:
the three rows (`i = 0, 3, 6`), the three columns (`i = 0, 1, 2`),
then the two diagonals. -/
def LINES : List (Nat × Nat × Nat) :=
  [(0, 1, 2), (3, 4, 5), (6, 7, 8), (0, 3, 6), (1, 4, 7), (2, 5, 8), (0, 4, 8), (2, 4, 6)]

/-- `won` applied to the three cells of one line. -/
def wonAt (board : List String) (l : Nat × Nat × Nat) : Bool :=
  won (board.getD l.1 "") (board.getD l.2.1 "") (board.getD l.2.2 "")

/-- `isGameOver(board)`: return a win for the first line (in `LINES` order)
whose three cells are equal and non-empty; otherwise a tie if no slot is
available, otherwise continue with the available slots. -/
def isGameOver (board : List String) : GameResult :=
  match LINES.find? (wonAt board) with
  | some (i, j, k) => .win (board.getD i "") [i, j, k]
  | none =>
    let availableSlots := getAvailableSlots board
    if availableSlots.length == 0 then .tie
    else .cont availableSlots

/-- The two ways `play` can throw. -/
inductive PlayError where
  | invalidState
  | invalidMove
deriving DecidableEq

/-- `play(slot, player)`: throw `invalidState` if the game is over, throw
`invalidMove` if the slot is not valid; otherwise write `player` into the
slot, classify the new board, and set `gameOver` when the result is not
`CONTINUE`.  A throw leaves the state untouched, so the embedding returns
the unchanged state alongside the error. -/
def play (st : GameState) (slot : Int) (player : String) :
    Except PlayError GameResult × GameState :=
  if st.gameOver then (.error .invalidState, st)
  else if !(isValidSlot st.board slot) then (.error .invalidMove, st)
  else
    let board := st.board.set slot.toNat player
    let result := isGameOver board
    let over := match result with
      | .cont _ => st.gameOver
      | _ => true
    (.ok result, ⟨board, over⟩)

/-- The object returned by `minimax`: best slot and best score.  The source
initialises `bestMove` to the empty object `{}`; the embedding gives the
initial object the sentinel best score (the first candidate always
overwrites it whenever the search has enough fuel, which we prove). -/
structure MMResult where
  slot : Option Nat
  score : Int
deriving DecidableEq

/-- The `for (const slot of game_result["slots"])` loop of `minimax`,
threading the mutable board.  Each iteration writes `player` into the slot,
recurses (`rec` is `minimax` with one fuel unit less), restores the slot to
`""`, updates the best score/move with a strict comparison and updates
alpha (resp. beta), and stops early when `beta ≤ alpha`. -/
def mmLoop (rec : List String → String → Int → Int → MMResult × List String)
    (cp hp player : String) :
    List Nat → List String → MMResult → Int → Int → Int → MMResult × List String
  | [], board, bestMove, _, _, _ => (bestMove, board)
  | slot :: rest, board, bestMove, bestScore, alpha, beta =>
    if player == cp then
      let res := rec (board.set slot player) hp alpha beta
      let bestScore1 := if res.1.score > bestScore then res.1.score else bestScore
      let bestMove1 : MMResult :=
        if res.1.score > bestScore then ⟨some slot, res.1.score⟩ else bestMove
      let alpha1 := max alpha bestScore1
      let board1 := res.2.set slot ""
      if beta ≤ alpha1 then (bestMove1, board1)
      else mmLoop rec cp hp player rest board1 bestMove1 bestScore1 alpha1 beta
    else
      let res := rec (board.set slot player) cp alpha beta
      let bestScore1 := if res.1.score < bestScore then res.1.score else bestScore
      let bestMove1 : MMResult :=
        if res.1.score < bestScore then ⟨some slot, res.1.score⟩ else bestMove
      let beta1 := min beta bestScore1
      let board1 := res.2.set slot ""
      if beta1 ≤ alpha then (bestMove1, board1)
      else mmLoop rec cp hp player rest board1 bestMove1 bestScore1 alpha beta1

/-- `minimax(board, player, alpha, beta, depth)`, embedded with explicit
board passing and a fuel argument bounding the recursion depth (the source
recursion is bounded by the number of empty slots, which every call of the
engine covers).  Terminal positions get `WIN_SCORE` / `LOSE_SCORE` /
`TIE_SCORE`; otherwise the candidate loop runs with the sentinel initial
best score. -/
def minimax (cp hp : String) : Nat → List String → String → Int → Int →
    MMResult × List String
  | 0, board, _, _, _ => (⟨none, 0⟩, board)
  | fuel + 1, board, player, alpha, beta =>
    match isGameOver board with
    | .win p _ => (⟨none, if p == cp then WIN_SCORE else LOSE_SCORE⟩, board)
    | .tie => (⟨none, TIE_SCORE⟩, board)
    | .cont slots =>
      let bestScore : Int := if player == cp then MIN else MAX
      mmLoop (minimax cp hp fuel) cp hp player slots board ⟨none, bestScore⟩
        bestScore alpha beta

/-- `getNextBestSlot()`: run `minimax` for the computer player on a copy of
the owned board with the sentinel window, and surface the chosen slot. -/
def getNextBestSlot (st : GameState) : Option Nat :=
  let board := st.board
  (minimax computerPlayer humanPlayer board.length board computerPlayer MIN MAX).1.slot

/-- Pure counterpart of `mmLoop` (no board threading); we prove below that
`mmLoop` returns exactly this value together with the untouched board. -/
def pureLoop (rec : List String → String → Int → Int → MMResult)
    (cp hp player : String) :
    List Nat → List String → MMResult → Int → Int → Int → MMResult
  | [], _, bestMove, _, _, _ => bestMove
  | slot :: rest, board, bestMove, bestScore, alpha, beta =>
    if player == cp then
      let result := rec (board.set slot player) hp alpha beta
      let bestScore1 := if result.score > bestScore then result.score else bestScore
      let bestMove1 : MMResult :=
        if result.score > bestScore then ⟨some slot, result.score⟩ else bestMove
      let alpha1 := max alpha bestScore1
      if beta ≤ alpha1 then bestMove1
      else pureLoop rec cp hp player rest board bestMove1 bestScore1 alpha1 beta
    else
      let result := rec (board.set slot player) cp alpha beta
      let bestScore1 := if result.score < bestScore then result.score else bestScore
      let bestMove1 : MMResult :=
        if result.score < bestScore then ⟨some slot, result.score⟩ else bestMove
      let beta1 := min beta bestScore1
      if beta1 ≤ alpha then bestMove1
      else pureLoop rec cp hp player rest board bestMove1 bestScore1 alpha beta1

/-- Pure counterpart of `minimax`. -/
def pureMinimax (cp hp : String) : Nat → List String → String → Int → Int → MMResult
  | 0, _, _, _, _ => ⟨none, 0⟩
  | fuel + 1, board, player, alpha, beta =>
    match isGameOver board with
    | .win p _ => ⟨none, if p == cp then WIN_SCORE else LOSE_SCORE⟩
    | .tie => ⟨none, TIE_SCORE⟩
    | .cont slots =>
      let bestScore : Int := if player == cp then MIN else MAX
      pureLoop (pureMinimax cp hp fuel) cp hp player slots board ⟨none, bestScore⟩
        bestScore alpha beta

/-- Reference search for the refinement claim, written from the spec's
words: plain unpruned minimax over the same position, iterating the
available slots in ascending order and keeping the first (lowest-index)
best-scoring move through strict comparisons.  No alpha/beta window. -/
def specLoop (rec : List String → String → MMResult) (cp hp player : String) :
    List Nat → List String → MMResult → Int → MMResult
  | [], _, bestMove, _ => bestMove
  | slot :: rest, board, bestMove, bestScore =>
    if player == cp then
      let result := rec (board.set slot player) hp
      let bestScore1 := if result.score > bestScore then result.score else bestScore
      let bestMove1 : MMResult :=
        if result.score > bestScore then ⟨some slot, result.score⟩ else bestMove
      specLoop rec cp hp player rest board bestMove1 bestScore1
    else
      let result := rec (board.set slot player) cp
      let bestScore1 := if result.score < bestScore then result.score else bestScore
      let bestMove1 : MMResult :=
        if result.score < bestScore then ⟨some slot, result.score⟩ else bestMove
      specLoop rec cp hp player rest board bestMove1 bestScore1

/-- Reference unpruned minimax (see `specLoop`). -/
def specMinimax (cp hp : String) : Nat → List String → String → MMResult
  | 0, _, _ => ⟨none, 0⟩
  | fuel + 1, board, player =>
    match isGameOver board with
    | .win p _ => ⟨none, if p == cp then WIN_SCORE else LOSE_SCORE⟩
    | .tie => ⟨none, TIE_SCORE⟩
    | .cont slots =>
      let bestScore : Int := if player == cp then MIN else MAX
      specLoop (specMinimax cp hp fuel) cp hp player slots board ⟨none, bestScore⟩
        bestScore

/-- Engine-versus-engine self-play: starting from `board` with `me` to move,
each side in turn plays the slot chosen by the engine's best-move search run
with itself as the maximizing player, until the game is over.  Returns the
final classification. -/
def selfPlay : Nat → List String → String → String → GameResult
  | 0, board, _, _ => isGameOver board
  | n + 1, board, me, opp =>
    match isGameOver board with
    | .cont _ =>
      match (minimax me opp board.length board me MIN MAX).1.slot with
      | some s => selfPlay n (board.set s me) opp me
      | none => isGameOver board
    | r => r

/-! ### Basic facts about the board operations -/

/-- Membership in `getAvailableSlots`: exactly the in-range empty slots. -/
theorem mem_getAvailableSlots {board : List String} {s : Nat} :
    s ∈ getAvailableSlots board ↔ s < board.length ∧ board.getD s "" = "" := by
  simp [getAvailableSlots, List.mem_filter, List.mem_range]

/-- Setting an empty slot back to empty is a no-op. -/
theorem set_empty_of_getD_empty {board : List String} {i : Nat}
    (h : board.getD i "" = "") : board.set i "" = board := by
  induction board generalizing i with
  | nil => simp
  | cons a t ih =>
    cases i with
    | zero => simp_all [List.getD]
    | succ j => simp_all [List.getD]

/-- If `isGameOver` says continue, the carried slots are the available ones. -/
theorem cont_slots_eq {board : List String} {slots : List Nat}
    (h : isGameOver board = .cont slots) : slots = getAvailableSlots board := by
  unfold isGameOver at h
  rcases hf : LINES.find? (wonAt board) with _ | ⟨⟨i, j, k⟩⟩ <;> rw [hf] at h
  · by_cases hz : (getAvailableSlots board).length == 0 <;> simp_all
  · simp at h

/-- If `isGameOver` says continue, some slot is available. -/
theorem cont_slots_ne_nil {board : List String} {slots : List Nat}
    (h : isGameOver board = .cont slots) : slots ≠ [] := by
  have he := cont_slots_eq h
  unfold isGameOver at h
  rcases hf : LINES.find? (wonAt board) with _ | ⟨⟨i, j, k⟩⟩ <;> rw [hf] at h
  · by_cases hz : (getAvailableSlots board).length == 0
    · simp_all
    · intro hnil
      rw [he] at hnil
      simp [hnil] at hz
  · simp at h

/-! ### The search restores the board: `mmLoop`/`minimax` against the pure versions -/

/-- The candidate loop of `minimax` computes the pure value and hands the
board back exactly as it received it (every examined slot is restored to
empty before moving on). -/
theorem mmLoop_eq_pure (rec : List String → String → Int → Int → MMResult × List String)
    (recP : List String → String → Int → Int → MMResult)
    (hrec : ∀ b p alpha beta, rec b p alpha beta = (recP b p alpha beta, b))
    (cp hp player : String) (slots : List Nat) :
    ∀ (board : List String) (bm : MMResult) (bs alpha beta : Int),
      (∀ s ∈ slots, board.getD s "" = "") →
      mmLoop rec cp hp player slots board bm bs alpha beta
        = (pureLoop recP cp hp player slots board bm bs alpha beta, board) := by
  induction slots with
  | nil => intro board bm bs alpha beta _; simp [mmLoop, pureLoop]
  | cons slot rest ih =>
    intro board bm bs alpha beta hslots
    have hempty : board.getD slot "" = "" := hslots slot (by simp)
    have hrest : ∀ s ∈ rest, board.getD s "" = "" := fun s hs => hslots s (by simp [hs])
    have hrestore : (board.set slot player).set slot "" = board := by
      rw [List.set_set, set_empty_of_getD_empty hempty]
    simp only [mmLoop, pureLoop, hrec, hrestore]
    by_cases hcp : player == cp <;> simp only [hcp, if_true, if_false, Bool.false_eq_true]
    · by_cases hprune :
        beta ≤ max alpha (if (recP (board.set slot player) hp alpha beta).score > bs
          then (recP (board.set slot player) hp alpha beta).score else bs)
      · simp [hprune]
      · simp only [hprune, if_false]
        exact ih board _ _ _ _ hrest
    · by_cases hprune :
        min beta (if (recP (board.set slot player) cp alpha beta).score < bs
          then (recP (board.set slot player) cp alpha beta).score else bs) ≤ alpha
      · simp [hprune]
      · simp only [hprune, if_false]
        exact ih board _ _ _ _ hrest

/-- `minimax` computes the pure value and returns its board unchanged:
the backtracking mutate-then-undo discipline of the source restores every
cell before control returns. -/
theorem minimax_eq_pure (cp hp : String) :
    ∀ (fuel : Nat) (board : List String) (player : String) (alpha beta : Int),
      minimax cp hp fuel board player alpha beta
        = (pureMinimax cp hp fuel board player alpha beta, board) := by
  intro fuel
  induction fuel with
  | zero => intro board player alpha beta; rfl
  | succ fuel ih =>
    intro board player alpha beta
    simp only [minimax, pureMinimax]
    rcases hres : isGameOver board with ⟨p, l⟩ | _ | slots
    · rfl
    · rfl
    · exact mmLoop_eq_pure _ _ ih cp hp player slots board _ _ _ _
        (fun s hs => by
          have := (mem_getAvailableSlots).1 (cont_slots_eq hres ▸ hs)
          exact this.2)

/-! ### Cell-level lemmas -/

/-- Reading the slot just written. -/
theorem getD_set_self {board : List String} {i : Nat} (h : i < board.length)
    (x : String) : (board.set i x).getD i "" = x := by
  induction board generalizing i with
  | nil => simp at h
  | cons a t ih =>
    cases i with
    | zero => simp [List.getD]
    | succ j => simpa [List.getD] using ih (by simpa using h)

/-- Reading any other slot after a write. -/
theorem getD_set_ne {board : List String} {i j : Nat} (h : i ≠ j) (x : String) :
    (board.set i x).getD j "" = board.getD j "" := by
  induction board generalizing i j with
  | nil => simp
  | cons a t ih =>
    cases i with
    | zero => cases j with
      | zero => exact absurd rfl h
      | succ k => simp [List.getD]
    | succ i1 => cases j with
      | zero => simp [List.getD]
      | succ k => simpa [List.getD] using ih (i := i1) (j := k) (by omega)

/-- Unfolding of the slot-validity test. -/
theorem isValidSlot_iff {board : List String} {s : Int} :
    isValidSlot board s = true ↔
      0 ≤ s ∧ s < (board.length : Int) ∧ board.getD s.toNat "" = "" := by
  simp [isValidSlot, and_assoc]

/-! ### Claim C8: the search never leaves a mutated board behind -/

/-- C8: at every recursion depth (including branches cut off by pruning) the
recursive minimax search returns with its board argument equal cell-by-cell
to its value at entry; consequently the best-move computation leaves the
engine's owned board and terminal flag unchanged (it runs `minimax` on the
board and only projects out the chosen slot). -/
theorem minimax_restores_board (cp hp : String) (fuel : Nat) (board : List String)
    (player : String) (alpha beta : Int) :
    (minimax cp hp fuel board player alpha beta).2 = board := by
  rw [minimax_eq_pure]

/-! ### Claim C4: failure cases of `play` -/

/-- C4: `play` fails with `invalidState` exactly when the game is already
over, fails with `invalidMove` when the game is running but the slot is
outside `[0, 8]` or occupied, succeeds otherwise, and every failure leaves
the board and the terminal flag completely unmodified. -/
theorem play_error_cases (st : GameState) (slot : Int) (player : String)
    (h9 : st.board.length = 9) :
    (st.gameOver = true → play st slot player = (.error .invalidState, st)) ∧
    (st.gameOver = false →
      (slot < 0 ∨ 8 < slot ∨ st.board.getD slot.toNat "" ≠ "") →
      play st slot player = (.error .invalidMove, st)) ∧
    (st.gameOver = false → 0 ≤ slot → slot ≤ 8 → st.board.getD slot.toNat "" = "" →
      ∃ over, play st slot player
        = (.ok (isGameOver (st.board.set slot.toNat player)),
            ⟨st.board.set slot.toNat player, over⟩)) := by
  refine ⟨fun hov => by simp [play, hov], fun hov hbad => ?_, fun hov h0 h8 hemp => ?_⟩
  · have hv : isValidSlot st.board slot = false := by
      rw [Bool.eq_false_iff]
      intro hvt
      obtain ⟨ha, hb, hc⟩ := isValidSlot_iff.1 hvt
      rw [h9] at hb
      rcases hbad with h | h | h
      · omega
      · omega
      · exact h hc
    simp [play, hov, hv]
  · have hv : isValidSlot st.board slot = true :=
      isValidSlot_iff.2 ⟨h0, by rw [h9]; omega, hemp⟩
    refine ⟨match isGameOver (st.board.set slot.toNat player) with
      | .cont _ => st.gameOver
      | _ => true, ?_⟩
    simp [play, hov, hv]

/-! ### Claim C5: the frame property of a successful `play` -/

/-- C5: a successful `play` on a running game writes the player's mark into
the one empty slot it was given — that cell goes from empty to the mark —
and every other cell (and the board length) is unchanged. -/
theorem play_frame (st : GameState) (s : Int) (player : String)
    (hov : st.gameOver = false) (hv : isValidSlot st.board s = true)
    (hp : player ≠ "") :
    st.board.getD s.toNat "" = "" ∧
    (play st s player).2.board.getD s.toNat "" = player ∧
    (play st s player).2.board.getD s.toNat "" ≠ "" ∧
    (∀ j, j ≠ s.toNat → (play st s player).2.board.getD j "" = st.board.getD j "") ∧
    (play st s player).2.board.length = st.board.length := by
  obtain ⟨h0, hlt, hemp⟩ := isValidSlot_iff.1 hv
  have hn : s.toNat < st.board.length := by omega
  have hplay : (play st s player).2.board = st.board.set s.toNat player := by
    simp [play, hov, hv]
  refine ⟨hemp, ?_, ?_, ?_, ?_⟩
  · rw [hplay, getD_set_self hn]
  · rw [hplay, getD_set_self hn]; exact hp
  · intro j hj; rw [hplay, getD_set_ne (fun he => hj he.symm)]
  · rw [hplay, List.length_set]

/-! ### Claim C10: `play` does not validate the player token -/

/-- C10: `play` never validates the player token: on a running game and a
valid empty slot it succeeds for every token, writing exactly that token
into the slot; in particular playing the empty token leaves the cell empty,
so the slot is still listed by `getAvailableSlots` and `isValidSlot` still
accepts it afterwards. -/
theorem play_arbitrary_token (st : GameState) (s : Int) (p : String)
    (hov : st.gameOver = false) (hv : isValidSlot st.board s = true) :
    (∃ over, play st s p
      = (.ok (isGameOver (st.board.set s.toNat p)), ⟨st.board.set s.toNat p, over⟩)) ∧
    (play st s p).2.board.getD s.toNat "" = p ∧
    (p = "" → (play st s p).2.board = st.board ∧
      s.toNat ∈ getAvailableSlots (play st s p).2.board ∧
      isValidSlot (play st s p).2.board s = true) := by
  obtain ⟨h0, hlt, hemp⟩ := isValidSlot_iff.1 hv
  have hn : s.toNat < st.board.length := by omega
  have hplay : (play st s p).2.board = st.board.set s.toNat p := by
    simp [play, hov, hv]
  refine ⟨⟨match isGameOver (st.board.set s.toNat p) with
    | .cont _ => st.gameOver
    | _ => true, by simp [play, hov, hv]⟩,
    by rw [hplay, getD_set_self hn], fun hpe => ?_⟩
  have hsame : (play st s p).2.board = st.board := by
    rw [hplay, hpe, set_empty_of_getD_empty hemp]
  exact ⟨hsame, by rw [hsame]; exact mem_getAvailableSlots.2 ⟨hn, hemp⟩,
    by rw [hsame]; exact hv⟩

/-! ### Claim C7: shape of `getAvailableSlots` -/

/-- The available-slot count over the index range equals the count of empty
cells. -/
theorem range_countP_empty (board : List String) :
    (List.range board.length).countP (fun i => board.getD i "" == "")
      = board.countP (fun c => c == "") := by
  induction board with
  | nil => simp
  | cons a t ih =>
    rw [List.length_cons, List.range_succ_eq_map, List.countP_cons, List.countP_map]
    simp only [List.getD_cons_succ, List.getD_cons_zero, List.countP_cons]
    rw [show ((fun i => (a :: t).getD i "" == "") ∘ Nat.succ)
        = (fun i => t.getD i "" == "") from rfl, ih]

/-- Empty and non-empty cell counts partition the board. -/
theorem countP_empty_add_nonempty (board : List String) :
    board.countP (fun c => c == "") + board.countP (fun c => !(c == ""))
      = board.length := by
  induction board with
  | nil => simp
  | cons a t ih => by_cases ha : a == "" <;> simp [List.countP_cons, ha] <;> omega

/-- C7: `getAvailableSlots` lists the empty slots in strictly ascending
order, and its length plus the number of non-empty cells is 9. -/
theorem availableSlots_sorted_length (board : List String) (h9 : board.length = 9) :
    List.Pairwise (· < ·) (getAvailableSlots board) ∧
    (getAvailableSlots board).length + board.countP (fun c => !(c == "")) = 9 := by
  constructor
  · exact List.Pairwise.sublist (List.filter_sublist _) (List.pairwise_lt_range _)
  · rw [getAvailableSlots, ← List.countP_eq_length_filter, range_countP_empty, ← h9]
    exact countP_empty_add_nonempty board

/-! ### Claim C9: soundness of the win classification -/

/-- Shared content of the win-soundness property. -/
theorem isGameOver_win_cells (board : List String) (p : String) (line : List Nat)
    (h : isGameOver board = .win p line) :
    ∃ i j k, line = [i, j, k] ∧ (i, j, k) ∈ LINES ∧
      board.getD i "" = p ∧ board.getD j "" = p ∧ board.getD k "" = p ∧ p ≠ "" := by
  unfold isGameOver at h
  rcases hf : LINES.find? (wonAt board) with _ | ⟨⟨i, j, k⟩⟩ <;> rw [hf] at h
  · by_cases hz : (getAvailableSlots board).length == 0 <;> simp_all
  · have hmem : (i, j, k) ∈ LINES := List.mem_of_find?_eq_some hf
    have hwon : wonAt board (i, j, k) = true := List.find?_some hf
    simp only [wonAt, won, Bool.and_eq_true, beq_iff_eq, beq_self_eq_true,
      Bool.not_eq_true', beq_eq_false_iff_ne, ne_eq, true_and] at hwon
    obtain ⟨⟨hj, hk⟩, hne⟩ := hwon
    simp only [GameResult.win.injEq] at h
    exact ⟨i, j, k, h.2.symm, hmem, h.1, by rw [hj]; exact h.1, by rw [hk]; exact h.1,
      by rw [← h.1]; exact hne⟩

/-- C9: whenever `isGameOver` reports a win, the reported line is one of the
8 fixed winning lines, all three of its cells hold the reported player's
(non-empty) mark — so a win is never reported for a board without a
completed line. -/
theorem win_classification_sound (board : List String) (p : String) (line : List Nat)
    (h : isGameOver board = .win p line) :
    ∃ i j k, line = [i, j, k] ∧ (i, j, k) ∈ LINES ∧
      board.getD i "" = p ∧ board.getD j "" = p ∧ board.getD k "" = p ∧ p ≠ "" :=
  isGameOver_win_cells board p line h

/-! ### Claim C3: which winning line is reported -/

/-- C3 fails as stated: a completely filled line is not necessarily the one
reported, because `isGameOver` returns the first completed line in its fixed
scan order.  Concretely, on `["X","X","X","O","O","O","","",""]` the line
`(3,4,5)` is filled by `"O"` (a non-empty mark), yet the classification is a
win for `"X"` with line `[0,1,2]`, not a win for `"O"` with line `[3,4,5]`. -/
theorem win_line_reported_cex :
    (3, 4, 5) ∈ LINES ∧
    (["X", "X", "X", "O", "O", "O", "", "", ""] : List String).getD 3 "" = "O" ∧
    (["X", "X", "X", "O", "O", "O", "", "", ""] : List String).getD 4 "" = "O" ∧
    (["X", "X", "X", "O", "O", "O", "", "", ""] : List String).getD 5 "" = "O" ∧
    ("O" : String) ≠ "" ∧
    isGameOver ["X", "X", "X", "O", "O", "O", "", "", ""] ≠ .win "O" [3, 4, 5] ∧
    isGameOver ["X", "X", "X", "O", "O", "O", "", "", ""] = .win "X" [0, 1, 2] := by
  decide

/-- `find?` returns the indexed element when everything before it fails the
predicate. -/
theorem find?_of_prefix_false {α : Type} (p : α → Bool) :
    ∀ (l : List α) (n : Nat) (a : α), l.get? n = some a → p a = true →
      (∀ b ∈ l.take n, p b = false) → l.find? p = some a := by
  intro l
  induction l with
  | nil => intro n a h; simp at h
  | cons x xs ih =>
    intro n a hget hp hpre
    cases n with
    | zero =>
      simp only [List.get?] at hget
      rw [Option.some.injEq] at hget
      subst hget
      exact List.find?_cons_of_pos _ hp
    | succ m =>
      have hx : p x = false := hpre x (by simp)
      rw [List.find?_cons_of_neg _ (by simp [hx])]
      exact ih m a (by simpa using hget) hp (fun b hb => hpre b (by simp [hb]))

/-- C3 amended: for each of the 8 winning lines and each player `p`, a board
whose three cells of that line all hold `p`'s non-empty mark is classified
as a win for `p` with exactly that line reported, provided the line is the
first completed one in the fixed rows-columns-diagonals scan order (the
other six cells are otherwise arbitrary, including empty). -/
theorem win_line_reported (board : List String) (p : String) (i j k n : Nat)
    (hline : LINES.get? n = some (i, j, k))
    (hbefore : ∀ l ∈ LINES.take n, wonAt board l = false)
    (hi : board.getD i "" = p) (hj : board.getD j "" = p) (hk : board.getD k "" = p)
    (hp : p ≠ "") :
    isGameOver board = .win p [i, j, k] := by
  have hwon : wonAt board (i, j, k) = true := by
    show ((board.getD i "" == board.getD i "" && board.getD j "" == board.getD i ""
        && board.getD k "" == board.getD i "") && !(board.getD i "" == "")) = true
    rw [hi, hj, hk]
    simp [hp]
  have hfind := find?_of_prefix_false (wonAt board) LINES n (i, j, k) hline hwon hbefore
  unfold isGameOver
  rw [hfind]
  show GameResult.win (board.getD i "") [i, j, k] = GameResult.win p [i, j, k]
  rw [hi]

/-- Witness for the amended C3 at a concrete input. -/
theorem win_line_reported_witness :
    isGameOver ["", "", "", "O", "O", "O", "", "", ""] = .win "O" [3, 4, 5] :=
  win_line_reported ["", "", "", "O", "O", "O", "", "", ""] "O" 3 4 5 1
    (by decide) (by decide) (by decide) (by decide) (by decide) (by decide)

/-! ### Invariants of the search: scores stay in band, chosen slots are candidates -/

/-- Number of empty slots. -/
def emptyCount (board : List String) : Nat := (getAvailableSlots board).length

/-- Writing a non-empty mark removes exactly that index from the available
slots. -/
theorem avail_set (board : List String) (s : Nat) (p : String) (hp : p ≠ "") :
    getAvailableSlots (board.set s p)
      = (getAvailableSlots board).filter (fun i => !(i == s)) := by
  unfold getAvailableSlots
  rw [List.length_set, List.filter_filter]
  apply List.filter_congr
  intro i hi
  by_cases his : i = s
  · subst his
    rw [getD_set_self (by simpa using hi)]
    simp [hp]
  · rw [getD_set_ne (fun he => his he.symm)]
    simp [his]

/-- Available slots are listed without duplicates. -/
theorem avail_nodup (board : List String) : (getAvailableSlots board).Nodup :=
  List.Nodup.filter _ (List.nodup_range _)

/-- Filling an empty slot decreases the number of empty slots by one. -/
theorem emptyCount_set {board : List String} {s : Nat} {p : String}
    (hs : s < board.length) (he : board.getD s "" = "") (hp : p ≠ "") :
    emptyCount (board.set s p) + 1 = emptyCount board := by
  have hmem : s ∈ getAvailableSlots board := mem_getAvailableSlots.2 ⟨hs, he⟩
  have h1 : (getAvailableSlots board).filter (fun i => !(i == s))
      = (getAvailableSlots board).erase s := by
    rw [List.Nodup.erase_eq_filter (avail_nodup board)]
    rfl
  have h2 := List.length_erase_of_mem hmem
  have h3 : 1 ≤ (getAvailableSlots board).length := List.length_pos.2 (by
    intro hnil; rw [hnil] at hmem; simp at hmem)
  unfold emptyCount
  rw [avail_set board s p hp, h1]
  omega

/-- There are at most as many empty slots as cells. -/
theorem emptyCount_le_length (board : List String) :
    emptyCount board ≤ board.length := by
  unfold emptyCount getAvailableSlots
  calc (List.filter _ (List.range board.length)).length
      ≤ (List.range board.length).length := List.length_filter_le _ _
    _ = board.length := List.length_range _

/-- Loop invariant, maximizing branch: with in-band candidates the loop
returns an in-band score and a slot drawn from the candidate pool. -/
theorem pureLoop_inv_max (recP : List String → String → Int → Int → MMResult)
    (cp hp player : String) (hpl : (player == cp) = true)
    (board : List String) (S : List Nat) :
    ∀ (slots : List Nat) (bm : MMResult) (bs alpha beta : Int),
      (∀ s ∈ slots, s ∈ S) →
      (∀ s ∈ slots, ∀ a b : Int, a < b →
        -10 ≤ (recP (board.set s player) hp a b).score ∧
          (recP (board.set s player) hp a b).score ≤ 10) →
      alpha < beta →
      bm.score = bs →
      (((∃ t ∈ S, bm.slot = some t) ∧ -10 ≤ bs ∧ bs ≤ 10) ∨
        (bs = MIN ∧ slots ≠ [])) →
      (∃ t ∈ S, (pureLoop recP cp hp player slots board bm bs alpha beta).slot = some t) ∧
        -10 ≤ (pureLoop recP cp hp player slots board bm bs alpha beta).score ∧
        (pureLoop recP cp hp player slots board bm bs alpha beta).score ≤ 10 := by
  intro slots
  induction slots with
  | nil =>
    intro bm bs alpha beta _ _ _ hbm hstart
    rcases hstart with ⟨hslot, hlo, hhi⟩ | ⟨_, hne⟩
    · have hr : pureLoop recP cp hp player [] board bm bs alpha beta = bm := rfl
      rw [hr, hbm]
      exact ⟨hslot, hlo, hhi⟩
    · exact absurd rfl hne
  | cons slot rest ih =>
    intro bm bs alpha beta hsub hrec hab hbm hstart
    have hrng := hrec slot (by simp) alpha beta hab
    simp only [pureLoop, hpl, if_true]
    by_cases hgt : (recP (board.set slot player) hp alpha beta).score > bs
    · simp only [hgt, if_true]
      by_cases hpr : beta ≤ max alpha (recP (board.set slot player) hp alpha beta).score
      · simp only [hpr, if_true]
        exact ⟨⟨slot, hsub slot (by simp), rfl⟩, hrng⟩
      · simp only [hpr, if_false]
        exact ih ⟨some slot, _⟩ _ _ beta
          (fun s hs => hsub s (by simp [hs]))
          (fun s hs a b h => hrec s (by simp [hs]) a b h)
          (by omega) rfl
          (Or.inl ⟨⟨slot, hsub slot (by simp), rfl⟩, hrng⟩)
    · simp only [hgt, if_false]
      rcases hstart with ⟨hslot, hlo, hhi⟩ | ⟨hsent, _⟩
      · by_cases hpr : beta ≤ max alpha bs
        · simp only [hpr, if_true]
          rw [hbm]
          exact ⟨hslot, hlo, hhi⟩
        · simp only [hpr, if_false]
          exact ih bm _ _ beta
            (fun s hs => hsub s (by simp [hs]))
            (fun s hs a b h => hrec s (by simp [hs]) a b h)
            (by omega) hbm (Or.inl ⟨hslot, hlo, hhi⟩)
      · rw [hsent] at hgt
        exact absurd (by unfold MIN; omega) hgt

/-- Loop invariant, minimizing branch. -/
theorem pureLoop_inv_min (recP : List String → String → Int → Int → MMResult)
    (cp hp player : String) (hpl : (player == cp) = false)
    (board : List String) (S : List Nat) :
    ∀ (slots : List Nat) (bm : MMResult) (bs alpha beta : Int),
      (∀ s ∈ slots, s ∈ S) →
      (∀ s ∈ slots, ∀ a b : Int, a < b →
        -10 ≤ (recP (board.set s player) cp a b).score ∧
          (recP (board.set s player) cp a b).score ≤ 10) →
      alpha < beta →
      bm.score = bs →
      (((∃ t ∈ S, bm.slot = some t) ∧ -10 ≤ bs ∧ bs ≤ 10) ∨
        (bs = MAX ∧ slots ≠ [])) →
      (∃ t ∈ S, (pureLoop recP cp hp player slots board bm bs alpha beta).slot = some t) ∧
        -10 ≤ (pureLoop recP cp hp player slots board bm bs alpha beta).score ∧
        (pureLoop recP cp hp player slots board bm bs alpha beta).score ≤ 10 := by
  intro slots
  induction slots with
  | nil =>
    intro bm bs alpha beta _ _ _ hbm hstart
    rcases hstart with ⟨hslot, hlo, hhi⟩ | ⟨_, hne⟩
    · have hr : pureLoop recP cp hp player [] board bm bs alpha beta = bm := rfl
      rw [hr, hbm]
      exact ⟨hslot, hlo, hhi⟩
    · exact absurd rfl hne
  | cons slot rest ih =>
    intro bm bs alpha beta hsub hrec hab hbm hstart
    have hrng := hrec slot (by simp) alpha beta hab
    simp only [pureLoop, hpl, if_false, Bool.false_eq_true]
    by_cases hlt : (recP (board.set slot player) cp alpha beta).score < bs
    · simp only [hlt, if_true]
      by_cases hpr : min beta (recP (board.set slot player) cp alpha beta).score ≤ alpha
      · simp only [hpr, if_true]
        exact ⟨⟨slot, hsub slot (by simp), rfl⟩, hrng⟩
      · simp only [hpr, if_false]
        exact ih ⟨some slot, _⟩ _ alpha _
          (fun s hs => hsub s (by simp [hs]))
          (fun s hs a b h => hrec s (by simp [hs]) a b h)
          (by omega) rfl
          (Or.inl ⟨⟨slot, hsub slot (by simp), rfl⟩, hrng⟩)
    · simp only [hlt, if_false]
      rcases hstart with ⟨hslot, hlo, hhi⟩ | ⟨hsent, _⟩
      · by_cases hpr : min beta bs ≤ alpha
        · simp only [hpr, if_true]
          rw [hbm]
          exact ⟨hslot, hlo, hhi⟩
        · simp only [hpr, if_false]
          exact ih bm _ alpha _
            (fun s hs => hsub s (by simp [hs]))
            (fun s hs a b h => hrec s (by simp [hs]) a b h)
            (by omega) hbm (Or.inl ⟨hslot, hlo, hhi⟩)
      · rw [hsent] at hlt
        exact absurd (by unfold MAX; omega) hlt

/-- Every `pureMinimax` call with enough fuel returns an in-band score, and
on a continuing position its chosen slot is one of the carried candidates. -/
theorem pureMinimax_inv (cp hp : String) (hcp : cp ≠ "") (hhp : hp ≠ "") :
    ∀ (fuel : Nat) (board : List String) (player : String) (alpha beta : Int),
      (player = cp ∨ player = hp) →
      emptyCount board ≤ fuel → alpha < beta →
      (-10 ≤ (pureMinimax cp hp fuel board player alpha beta).score ∧
        (pureMinimax cp hp fuel board player alpha beta).score ≤ 10) ∧
      (∀ slots, isGameOver board = .cont slots →
        ∃ t ∈ slots, (pureMinimax cp hp fuel board player alpha beta).slot = some t) := by
  intro fuel
  induction fuel with
  | zero =>
    intro board player alpha beta _ hfuel _
    refine ⟨by simp [pureMinimax], fun slots hcont => ?_⟩
    have h1 := cont_slots_ne_nil hcont
    have h2 := cont_slots_eq hcont
    have : (getAvailableSlots board).length = 0 := by
      unfold emptyCount at hfuel; omega
    rw [h2] at h1
    exact absurd (List.length_eq_zero.1 this) h1
  | succ fuel ih =>
    intro board player alpha beta hplayer hfuel hab
    have hplayer_ne : player ≠ "" := by
      rcases hplayer with rfl | rfl <;> assumption
    rcases hres : isGameOver board with ⟨p, l⟩ | _ | slots
    · refine ⟨?_, fun slots hcont => by simp at hcont⟩
      simp only [pureMinimax, hres]
      by_cases hpc : p == cp <;> simp [hpc, WIN_SCORE, LOSE_SCORE]
    · refine ⟨?_, fun slots hcont => by simp at hcont⟩
      simp only [pureMinimax, hres]
      simp [TIE_SCORE]
    · have hslots_avail := cont_slots_eq hres
      have hslots_ne := cont_slots_ne_nil hres
      have hchild : ∀ s ∈ slots, ∀ (q : String), (q = cp ∨ q = hp) →
          ∀ a b : Int, a < b →
          -10 ≤ (pureMinimax cp hp fuel (board.set s player) q a b).score ∧
            (pureMinimax cp hp fuel (board.set s player) q a b).score ≤ 10 := by
        intro s hs q hq a b h
        have hsm := mem_getAvailableSlots.1 (hslots_avail ▸ hs)
        have hec := emptyCount_set hsm.1 hsm.2 hplayer_ne
        exact (ih (board.set s player) q a b hq (by omega) h).1
      simp only [pureMinimax, hres]
      by_cases hpl : player == cp
      · have hloop := pureLoop_inv_max (pureMinimax cp hp fuel) cp hp player hpl
          board slots slots ⟨none, if (player == cp) = true then MIN else MAX⟩
          (if (player == cp) = true then MIN else MAX) alpha beta
          (fun s hs => hs)
          (fun s hs a b h => hchild s hs hp (Or.inr rfl) a b h)
          hab (by simp) (Or.inr ⟨by simp [hpl], hslots_ne⟩)
        refine ⟨hloop.2, fun slots1 hcont => ?_⟩
        injection hcont with h
        subst h
        exact hloop.1
      · have hpl2 : (player == cp) = false := by
          rw [Bool.eq_false_iff]; exact hpl
        have hloop := pureLoop_inv_min (pureMinimax cp hp fuel) cp hp player hpl2
          board slots slots ⟨none, if (player == cp) = true then MIN else MAX⟩
          (if (player == cp) = true then MIN else MAX) alpha beta
          (fun s hs => hs)
          (fun s hs a b h => hchild s hs cp (Or.inl rfl) a b h)
          hab (by simp) (Or.inr ⟨by simp [hpl2], hslots_ne⟩)
        refine ⟨hloop.2, fun slots1 hcont => ?_⟩
        injection hcont with h
        subst h
        exact hloop.1

/-! ### Claim C6: the chosen slot is always a free slot -/

/-- C6: on a continuing position (not terminal, hence with at least one
empty slot) the index returned by the best-move computation is one of the
board's empty slots — never an occupied slot and never out of range. -/
theorem bestSlot_is_available (st : GameState) (slots : List Nat)
    (hcont : isGameOver st.board = .cont slots) :
    ∃ s, getNextBestSlot st = some s ∧ s ∈ getAvailableSlots st.board ∧
      s < st.board.length ∧ st.board.getD s "" = "" := by
  have hinv := pureMinimax_inv computerPlayer humanPlayer (by decide) (by decide)
    st.board.length st.board computerPlayer MIN MAX (Or.inl rfl)
    (emptyCount_le_length st.board) (by decide)
  obtain ⟨t, ht, hslot⟩ := hinv.2 slots hcont
  have hmem : t ∈ getAvailableSlots st.board := by
    rw [cont_slots_eq hcont] at ht
    exact ht
  have hfacts := mem_getAvailableSlots.1 hmem
  refine ⟨t, ?_, hmem, hfacts.1, hfacts.2⟩
  show (minimax computerPlayer humanPlayer st.board.length st.board
    computerPlayer MIN MAX).1.slot = some t
  rw [minimax_eq_pure]
  exact hslot

/-- Witness for C6 at the empty board. -/
theorem bestSlot_is_available_witness :
    ∃ s, getNextBestSlot initGame = some s ∧ s ∈ getAvailableSlots initGame.board ∧
      s < initGame.board.length ∧ initGame.board.getD s "" = "" :=
  bestSlot_is_available initGame [0, 1, 2, 3, 4, 5, 6, 7, 8] (by decide)

/-! ### A packed model of the same search

For the self-play computation the string board is packed into a single
natural number (base-4 digits: 0 empty, `code "X" = 1`, `code "O" = 2`) so
the kernel can evaluate the search through fast numeric reductions.  The
packed search is proven extensionally equal to `pureMinimax` (and hence,
through `minimax_eq_pure`, to the engine's `minimax`); it is only a
computation vehicle, never a source of truth. -/

/-- Code of a cell: 0 empty, 1 for the computer's mark, 2 otherwise. -/
def code (c : String) : Nat := if c = "" then 0 else if c = "X" then 1 else 2

/-- Base-4 packing of a board, least-significant digit = slot 0. -/
def encode (board : List String) : Nat :=
  board.foldr (fun c acc => code c + 4 * acc) 0

/-- Packed cell read. -/
def pget (n i : Nat) : Nat := n / 4 ^ i % 4

/-- Packed cell write. -/
def pset (n i v : Nat) : Nat :=
  n / 4 ^ (i + 1) * 4 ^ (i + 1) + v * 4 ^ i + n % 4 ^ i

/-- Packed `wonAt`. -/
def pwonAt (n : Nat) (l : Nat × Nat × Nat) : Bool :=
  (pget n l.1 == pget n l.1 && pget n l.2.1 == pget n l.1
    && pget n l.2.2 == pget n l.1) && !(pget n l.1 == 0)

/-- Packed `getAvailableSlots` (9-slot boards). -/
def pavail (n : Nat) : List Nat := (List.range 9).filter (fun i => pget n i == 0)

/-- Packed game classification result. -/
inductive PRes where
  | win (p : Nat) (slots : List Nat)
  | tie
  | cont (slots : List Nat)
deriving DecidableEq

/-- Packed `isGameOver`. -/
def pover (n : Nat) : PRes :=
  match LINES.find? (pwonAt n) with
  | some (i, j, k) => .win (pget n i) [i, j, k]
  | none =>
    let av := pavail n
    if av.length == 0 then .tie else .cont av

/-- Image of a classification under the packing. -/
def presOf : GameResult → PRes
  | .win p l => .win (code p) l
  | .tie => .tie
  | .cont l => .cont l

/-- Force a natural number to head-normal form before continuing (an
evaluation aid; provably the identity). -/
def forceN {α : Sort _} (v : Nat) (k : Nat → α) : α :=
  match v with
  | 0 => k 0
  | m + 1 => k (m + 1)

/-- Force an integer to head-normal form before continuing. -/
def forceI {α : Sort _} (v : Int) (k : Int → α) : α :=
  match v with
  | .ofNat m => forceN m (fun m1 => k (.ofNat m1))
  | .negSucc m => forceN m (fun m1 => k (.negSucc m1))

/-- Packed candidate loop (same structure as `pureLoop`). -/
def pLoop (rec : Nat → Nat → Int → Int → MMResult) (cp hp player : Nat) :
    List Nat → Nat → MMResult → Int → Int → Int → MMResult
  | [], _, bestMove, _, _, _ => bestMove
  | slot :: rest, board, bestMove, bestScore, alpha, beta =>
    if player == cp then
      let result := forceN (pset board slot player) (fun nb => rec nb hp alpha beta)
      let bestScore1 := if result.score > bestScore then result.score else bestScore
      let bestMove1 : MMResult :=
        if result.score > bestScore then ⟨some slot, result.score⟩ else bestMove
      let alpha1 := max alpha bestScore1
      if beta ≤ alpha1 then bestMove1
      else forceI bestScore1 (fun bs1 => forceI alpha1 (fun a1 =>
        pLoop rec cp hp player rest board bestMove1 bs1 a1 beta))
    else
      let result := forceN (pset board slot player) (fun nb => rec nb cp alpha beta)
      let bestScore1 := if result.score < bestScore then result.score else bestScore
      let bestMove1 : MMResult :=
        if result.score < bestScore then ⟨some slot, result.score⟩ else bestMove
      let beta1 := min beta bestScore1
      if beta1 ≤ alpha then bestMove1
      else forceI bestScore1 (fun bs1 => forceI beta1 (fun b1 =>
        pLoop rec cp hp player rest board bestMove1 bs1 alpha b1))

/-- Packed minimax (same structure as `pureMinimax`). -/
def pMinimax (cp hp : Nat) : Nat → Nat → Nat → Int → Int → MMResult
  | 0, _, _, _, _ => ⟨none, 0⟩
  | fuel + 1, board, player, alpha, beta =>
    match pover board with
    | .win p _ => if p == cp then ⟨none, WIN_SCORE⟩ else ⟨none, LOSE_SCORE⟩
    | .tie => ⟨none, TIE_SCORE⟩
    | .cont slots =>
      pLoop (pMinimax cp hp fuel) cp hp player slots board
        ⟨none, if player == cp then MIN else MAX⟩
        (if player == cp then MIN else MAX) alpha beta

/-- Packed self-play (same structure as `selfPlay`; 9-slot boards). -/
def pSelfPlay : Nat → Nat → Nat → Nat → PRes
  | 0, board, _, _ => pover board
  | n + 1, board, me, opp =>
    match pover board with
    | .cont _ =>
      match (pMinimax me opp 9 board me MIN MAX).slot with
      | some s => forceN (pset board s me) (fun nb => pSelfPlay n nb opp me)
      | none => pover board
    | r => r

/-! ### The packed model agrees with the string model -/

/-- Cell codes are base-4 digits. -/
theorem code_lt_four (c : String) : code c < 4 := by
  unfold code
  split_ifs <;> omega

/-- Reading a packed board. -/
theorem pget_encode : ∀ (b : List String) (i : Nat),
    pget (encode b) i = code (b.getD i "") := by
  intro b
  induction b with
  | nil =>
    intro i
    show 0 / 4 ^ i % 4 = code ""
    simp [code]
  | cons c t ih =>
    intro i
    cases i with
    | zero =>
      show (code c + 4 * encode t) / 4 ^ 0 % 4 = code c
      rw [pow_zero, Nat.div_one, Nat.add_mul_mod_self_left,
        Nat.mod_eq_of_lt (code_lt_four c)]
    | succ i1 =>
      show (code c + 4 * encode t) / 4 ^ (i1 + 1) % 4 = code (t.getD i1 "")
      rw [← ih i1]
      show _ = encode t / 4 ^ i1 % 4
      rw [pow_succ', ← Nat.div_div_eq_div_mul,
        Nat.add_mul_div_left _ _ (by norm_num : (0:Nat) < 4),
        Nat.div_eq_of_lt (code_lt_four c), Nat.zero_add]

/-- Writing a packed board. -/
theorem pset_encode : ∀ (b : List String) (s : Nat) (p : String), s < b.length →
    pset (encode b) s (code p) = encode (b.set s p) := by
  intro b
  induction b with
  | nil => intro s p h; simp at h
  | cons c t ih =>
    intro s p h
    cases s with
    | zero =>
      show (code c + 4 * encode t) / 4 ^ 1 * 4 ^ 1 + code p * 4 ^ 0
          + (code c + 4 * encode t) % 4 ^ 0 = code p + 4 * encode t
      rw [pow_one, pow_zero, Nat.mod_one,
        Nat.add_mul_div_left _ _ (by norm_num : (0:Nat) < 4),
        Nat.div_eq_of_lt (code_lt_four c)]
      omega
    | succ s1 =>
      have h1 : s1 < t.length := by simpa using h
      show (code c + 4 * encode t) / 4 ^ (s1 + 2) * 4 ^ (s1 + 2) + code p * 4 ^ (s1 + 1)
          + (code c + 4 * encode t) % 4 ^ (s1 + 1) = code c + 4 * encode (t.set s1 p)
      rw [← ih s1 p h1]
      show _ = code c + 4 * (encode t / 4 ^ (s1 + 1) * 4 ^ (s1 + 1)
        + code p * 4 ^ s1 + encode t % 4 ^ s1)
      have hm : 0 < 4 ^ s1 := Nat.pos_pow_of_pos s1 (by norm_num)
      have hdiv : (code c + 4 * encode t) / 4 ^ (s1 + 2) = encode t / 4 ^ (s1 + 1) := by
        rw [show ((4:Nat) ^ (s1 + 2)) = 4 * 4 ^ (s1 + 1) from by ring,
          ← Nat.div_div_eq_div_mul,
          Nat.add_mul_div_left _ _ (by norm_num : (0:Nat) < 4),
          Nat.div_eq_of_lt (code_lt_four c), Nat.zero_add]
      have hmod : (code c + 4 * encode t) % 4 ^ (s1 + 1)
          = code c + 4 * (encode t % 4 ^ s1) := by
        rw [show ((4:Nat) ^ (s1 + 1)) = 4 * 4 ^ s1 from by ring]
        have hlt : code c + 4 * (encode t % 4 ^ s1) < 4 * 4 ^ s1 := by
          have := code_lt_four c
          have := Nat.mod_lt (encode t) hm
          omega
        rw [Nat.add_mod, Nat.mul_mod_mul_left,
          Nat.mod_eq_of_lt (show code c < 4 * 4 ^ s1 by
            have := code_lt_four c; omega),
          Nat.mod_eq_of_lt hlt]
      rw [hdiv, hmod]
      rw [show ((4:Nat) ^ (s1 + 2)) = 4 * 4 ^ (s1 + 1) from by ring,
        show ((4:Nat) ^ (s1 + 1)) = 4 * 4 ^ s1 from by ring]
      ring

/-- Packed zero-test of a cell corresponds to the empty test. -/
theorem code_eq_zero (c : String) : (code c == 0) = (c == "") := by
  by_cases hc : c = ""
  · subst hc; rfl
  · unfold code
    rw [if_neg hc]
    by_cases hx : c = "X"
    · subst hx; rfl
    · rw [if_neg hx]
      simp [hc]

/-- A board is well-formed when each cell is empty or one of the two marks. -/
def WF (board : List String) : Prop := ∀ c ∈ board, c = "" ∨ c = "X" ∨ c = "O"

/-- Every read from a well-formed board is empty or a mark. -/
theorem WF_getD {board : List String} (h : WF board) (i : Nat) :
    board.getD i "" = "" ∨ board.getD i "" = "X" ∨ board.getD i "" = "O" := by
  by_cases hi : i < board.length
  · rw [List.getD_eq_getElem _ _ hi]
    exact h _ (List.getElem_mem hi)
  · rw [List.getD_eq_default _ _ (by omega)]
    exact Or.inl rfl

/-- `code` is injective on cell values. -/
theorem code_inj3 {x y : String} (hx : x = "" ∨ x = "X" ∨ x = "O")
    (hy : y = "" ∨ y = "X" ∨ y = "O") : (code x == code y) = (x == y) := by
  rcases hx with rfl | rfl | rfl <;> rcases hy with rfl | rfl | rfl <;> rfl

/-- Well-formedness is preserved by playing a mark. -/
theorem WF_set {board : List String} {p : String} (h : WF board)
    (hp : p = "X" ∨ p = "O") (s : Nat) : WF (board.set s p) := by
  intro c hc
  rcases List.mem_or_eq_of_mem_set hc with hmem | rfl
  · exact h c hmem
  · rcases hp with rfl | rfl
    · exact Or.inr (Or.inl rfl)
    · exact Or.inr (Or.inr rfl)

/-- Packed win test agrees with the string win test. -/
theorem pwonAt_encode {board : List String} (h : WF board) (l : Nat × Nat × Nat) :
    pwonAt (encode board) l = wonAt board l := by
  obtain ⟨i, j, k⟩ := l
  show ((pget (encode board) i == pget (encode board) i
      && pget (encode board) j == pget (encode board) i
      && pget (encode board) k == pget (encode board) i)
      && !(pget (encode board) i == 0))
    = ((board.getD i "" == board.getD i "" && board.getD j "" == board.getD i ""
      && board.getD k "" == board.getD i "") && !(board.getD i "" == ""))
  rw [pget_encode, pget_encode, pget_encode,
    code_inj3 (WF_getD h i) (WF_getD h i), code_inj3 (WF_getD h j) (WF_getD h i),
    code_inj3 (WF_getD h k) (WF_getD h i), code_eq_zero]

/-- Packed slot enumeration agrees with `getAvailableSlots`. -/
theorem pavail_encode {board : List String} (h9 : board.length = 9) :
    pavail (encode board) = getAvailableSlots board := by
  unfold pavail getAvailableSlots
  rw [h9]
  apply List.filter_congr
  intro i _
  rw [pget_encode, code_eq_zero]

/-- Packed classification agrees with `isGameOver`. -/
theorem pover_encode {board : List String} (hWF : WF board) (h9 : board.length = 9) :
    pover (encode board) = presOf (isGameOver board) := by
  unfold pover isGameOver
  rw [funext (pwonAt_encode hWF), pavail_encode h9]
  rcases hf : LINES.find? (wonAt board) with _ | ⟨⟨i, j, k⟩⟩
  · by_cases hz : (getAvailableSlots board).length == 0 <;> simp [presOf, hz]
  · show PRes.win (pget (encode board) i) [i, j, k]
      = presOf (GameResult.win (board.getD i "") [i, j, k])
    rw [pget_encode]
    rfl

/-- `forceN` is the identity. -/
theorem forceN_eq {α : Sort _} (v : Nat) (k : Nat → α) : forceN v k = k v := by
  cases v <;> rfl

/-- `forceI` is the identity. -/
theorem forceI_eq {α : Sort _} (v : Int) (k : Int → α) : forceI v k = k v := by
  cases v <;> simp [forceI, forceN_eq]

/-- The packed candidate loop agrees with the pure loop, given agreeing
child searches. -/
theorem pLoop_eq (recP : Nat → Nat → Int → Int → MMResult)
    (recS : List String → String → Int → Int → MMResult)
    (cp hp player : String) (board : List String)
    (hbranch : (code player == code cp) = (player == cp)) :
    ∀ (slots : List Nat) (bm : MMResult) (bs alpha beta : Int),
      (∀ s ∈ slots, ∀ a b : Int,
        recP (pset (encode board) s (code player)) (code hp) a b
          = recS (board.set s player) hp a b ∧
        recP (pset (encode board) s (code player)) (code cp) a b
          = recS (board.set s player) cp a b) →
      pLoop recP (code cp) (code hp) (code player) slots (encode board) bm bs alpha beta
        = pureLoop recS cp hp player slots board bm bs alpha beta := by
  intro slots
  induction slots with
  | nil => intro bm bs alpha beta _; rfl
  | cons slot rest ih =>
    intro bm bs alpha beta hrec
    have hs := hrec slot (by simp) alpha beta
    simp only [pLoop, pureLoop, forceN_eq, forceI_eq, hbranch, hs.1, hs.2]
    by_cases hcp : player == cp
    · simp only [hcp, if_true]
      by_cases hpr : beta ≤ max alpha
          (if (recS (board.set slot player) hp alpha beta).score > bs
            then (recS (board.set slot player) hp alpha beta).score else bs)
      · simp only [hpr, if_true]
      · simp only [hpr, if_false]
        exact ih _ _ _ _ (fun s hsm a b => hrec s (by simp [hsm]) a b)
    · simp only [hcp, if_false, Bool.false_eq_true]
      by_cases hpr : min beta
          (if (recS (board.set slot player) cp alpha beta).score < bs
            then (recS (board.set slot player) cp alpha beta).score else bs) ≤ alpha
      · simp only [hpr, if_true]
      · simp only [hpr, if_false]
        exact ih _ _ _ _ (fun s hsm a b => hrec s (by simp [hsm]) a b)

/-- On the engine's two players, packed and string branch tests agree. -/
theorem code_branch {cp hp player : String}
    (hcphp : (cp = "X" ∧ hp = "O") ∨ (cp = "O" ∧ hp = "X"))
    (hpl : player = cp ∨ player = hp) :
    (code player == code cp) = (player == cp) := by
  rcases hcphp with ⟨rfl, rfl⟩ | ⟨rfl, rfl⟩ <;> rcases hpl with rfl | rfl <;> rfl

/-- The packed search agrees with the pure search on well-formed 9-cell
boards. -/
theorem pMinimax_eq (cp hp : String)
    (hcphp : (cp = "X" ∧ hp = "O") ∨ (cp = "O" ∧ hp = "X")) :
    ∀ (fuel : Nat) (board : List String) (player : String) (alpha beta : Int),
      WF board → board.length = 9 → (player = cp ∨ player = hp) →
      pMinimax (code cp) (code hp) fuel (encode board) (code player) alpha beta
        = pureMinimax cp hp fuel board player alpha beta := by
  intro fuel
  induction fuel with
  | zero => intros; rfl
  | succ fuel ih =>
    intro board player alpha beta hWF h9 hpl
    have hplXO : player = "X" ∨ player = "O" := by
      rcases hcphp with ⟨hc, hh⟩ | ⟨hc, hh⟩ <;> rcases hpl with rfl | rfl <;>
        simp [hc, hh]
    have hover := pover_encode hWF h9
    simp only [pMinimax, pureMinimax, hover]
    rcases hres : isGameOver board with ⟨p, l⟩ | _ | slots
    · obtain ⟨i, j, k, _, _, hpi, _, _, _⟩ := isGameOver_win_cells board p l hres
      have hpr : p = "" ∨ p = "X" ∨ p = "O" := hpi ▸ WF_getD hWF i
      have hcpr : cp = "" ∨ cp = "X" ∨ cp = "O" := by
        rcases hcphp with ⟨rfl, _⟩ | ⟨rfl, _⟩ <;> simp
      show (if (code p == code cp) = true then (⟨none, WIN_SCORE⟩ : MMResult)
          else ⟨none, LOSE_SCORE⟩)
        = ⟨none, if (p == cp) = true then WIN_SCORE else LOSE_SCORE⟩
      rw [code_inj3 hpr hcpr]
      by_cases hpc : p == cp <;> simp [hpc]
    · rfl
    · have hslots := cont_slots_eq hres
      have hbranch := code_branch hcphp hpl
      show pLoop (pMinimax (code cp) (code hp) fuel) (code cp) (code hp) (code player)
          slots (encode board)
          ⟨none, if (code player == code cp) = true then MIN else MAX⟩
          (if (code player == code cp) = true then MIN else MAX) alpha beta
        = pureLoop (pureMinimax cp hp fuel) cp hp player slots board
          ⟨none, if (player == cp) = true then MIN else MAX⟩
          (if (player == cp) = true then MIN else MAX) alpha beta
      rw [hbranch]
      apply pLoop_eq _ _ cp hp player board hbranch
      intro s hsm a b
      have hsf := mem_getAvailableSlots.1 (hslots ▸ hsm)
      have hset := pset_encode board s player hsf.1
      have hWF1 : WF (board.set s player) := WF_set hWF hplXO s
      have h91 : (board.set s player).length = 9 := by rw [List.length_set]; exact h9
      constructor
      · rw [hset]
        exact ih (board.set s player) hp a b hWF1 h91 (Or.inr rfl)
      · rw [hset]
        exact ih (board.set s player) cp a b hWF1 h91 (Or.inl rfl)

/-- Packed self-play agrees with engine self-play on well-formed 9-cell
boards. -/
theorem selfPlay_eq_packed :
    ∀ (n : Nat) (board : List String) (me opp : String),
      WF board → board.length = 9 →
      ((me = "X" ∧ opp = "O") ∨ (me = "O" ∧ opp = "X")) →
      pSelfPlay n (encode board) (code me) (code opp)
        = presOf (selfPlay n board me opp) := by
  intro n
  induction n with
  | zero =>
    intro board me opp hWF h9 _
    exact pover_encode hWF h9
  | succ n ih =>
    intro board me opp hWF h9 hmeopp
    have hover := pover_encode hWF h9
    simp only [pSelfPlay, selfPlay, hover]
    rcases hres : isGameOver board with ⟨p, l⟩ | _ | slots
    · rfl
    · rfl
    · have hmineq : (pMinimax (code me) (code opp) 9 (encode board) (code me) MIN MAX).slot
          = (pureMinimax me opp 9 board me MIN MAX).slot := by
        rw [pMinimax_eq me opp hmeopp 9 board me MIN MAX hWF h9 (Or.inl rfl)]
      have hstateq : (minimax me opp board.length board me MIN MAX).1.slot
          = (pureMinimax me opp 9 board me MIN MAX).slot := by
        rw [minimax_eq_pure, h9]
      rw [hmineq, hstateq]
      rcases hslot : (pureMinimax me opp 9 board me MIN MAX).slot with _ | s
      · rfl
      · have hmene : me ≠ "" := by
          rcases hmeopp with ⟨rfl, _⟩ | ⟨rfl, _⟩ <;> simp
        have hoppne : opp ≠ "" := by
          rcases hmeopp with ⟨_, rfl⟩ | ⟨_, rfl⟩ <;> simp
        have hinv := pureMinimax_inv me opp hmene hoppne 9 board me MIN MAX
          (Or.inl rfl) (by have := emptyCount_le_length board; omega) (by decide)
        obtain ⟨t, ht, hts⟩ := hinv.2 slots hres
        rw [hslot] at hts
        have hst : s = t := Option.some.inj hts
        subst hst
        have hsf := mem_getAvailableSlots.1 ((cont_slots_eq hres) ▸ ht)
        show forceN (pset (encode board) s (code me))
            (fun nb => pSelfPlay n nb (code opp) (code me))
          = presOf (selfPlay n (board.set s me) opp me)
        rw [forceN_eq, pset_encode board s me hsf.1]
        have hmeXO : me = "X" ∨ me = "O" := by
          rcases hmeopp with ⟨rfl, _⟩ | ⟨rfl, _⟩ <;> simp
        exact ih (board.set s me) opp me (WF_set hWF hmeXO s)
          (by rw [List.length_set]; exact h9)
          (by rcases hmeopp with ⟨rfl, rfl⟩ | ⟨rfl, rfl⟩ <;> simp)

/-! ### Claim C1: engine self-play from the empty board ends in a tie -/

set_option maxRecDepth 4000000 in
set_option maxHeartbeats 20000000 in
/-- The packed computer-first self-play game ends in a tie (kernel
evaluation). -/
theorem pSelfPlay_x_first : pSelfPlay 9 0 1 2 = PRes.tie := by decide

set_option maxRecDepth 4000000 in
set_option maxHeartbeats 20000000 in
/-- The packed human-first self-play game ends in a tie (kernel
evaluation). -/
theorem pSelfPlay_o_first : pSelfPlay 9 0 2 1 = PRes.tie := by decide

/-- C1: every alternating self-play game from the empty board, in which
each side's move is the one chosen by the engine's alpha-beta best-move
search maximizing for that side, terminates with the final classification
Tie — neither player ever wins.  The engine's moves are deterministic, so
there are exactly two such games: the computer's mark moving first and the
human's mark moving first; both are settled. -/
theorem selfPlay_tie :
    selfPlay 9 initGame.board computerPlayer humanPlayer = .tie ∧
    selfPlay 9 initGame.board humanPlayer computerPlayer = .tie := by
  have hWF : WF initGame.board := by
    intro c hc
    simp [initGame] at hc
    exact Or.inl hc
  constructor
  · have hpacked : pSelfPlay 9 (encode initGame.board) (code computerPlayer)
        (code humanPlayer)
          = presOf (selfPlay 9 initGame.board computerPlayer humanPlayer) :=
      selfPlay_eq_packed 9 initGame.board computerPlayer humanPlayer hWF
        rfl (Or.inl ⟨rfl, rfl⟩)
    have hval : pSelfPlay 9 (encode initGame.board) (code computerPlayer)
        (code humanPlayer) = PRes.tie := pSelfPlay_x_first
    rw [hval] at hpacked
    rcases hr : selfPlay 9 initGame.board computerPlayer humanPlayer with ⟨p, l⟩ | _ | l
    · rw [hr] at hpacked
      simp [presOf] at hpacked
    · rfl
    · rw [hr] at hpacked
      simp [presOf] at hpacked
  · have hpacked : pSelfPlay 9 (encode initGame.board) (code humanPlayer)
        (code computerPlayer)
          = presOf (selfPlay 9 initGame.board humanPlayer computerPlayer) :=
      selfPlay_eq_packed 9 initGame.board humanPlayer computerPlayer hWF
        rfl (Or.inr ⟨rfl, rfl⟩)
    have hval : pSelfPlay 9 (encode initGame.board) (code humanPlayer)
        (code computerPlayer) = PRes.tie := pSelfPlay_o_first
    rw [hval] at hpacked
    rcases hr : selfPlay 9 initGame.board humanPlayer computerPlayer with ⟨p, l⟩ | _ | l
    · rw [hr] at hpacked
      simp [presOf] at hpacked
    · rfl
    · rw [hr] at hpacked
      simp [presOf] at hpacked

/-! ### Claim C2: pruning never changes the chosen move

The proof follows the classic fail-soft alpha-beta argument: a call with
window `(alpha, beta)` returns the exact unpruned value whenever that value
lies strictly inside the window, an upper bound on it when it fails low and
a lower bound when it fails high; at the root the window `(MIN, MAX)`
encloses every achievable score, so the loop states of the pruned and the
unpruned search coincide step by step, including the first-best tie-break. -/

/-- The strict-update step computes a maximum. -/
theorem ite_gt_eq_max (f bs : Int) : (if f > bs then f else bs) = max bs f := by
  rcases lt_or_le bs f with h | h
  · rw [if_pos h, max_eq_right h.le]
  · rw [if_neg (not_lt.2 h), max_eq_left h]

/-- The strict-update step computes a minimum. -/
theorem ite_lt_eq_min (f bs : Int) : (if f < bs then f else bs) = min bs f := by
  rcases lt_or_le f bs with h | h
  · rw [if_pos h, min_eq_right h.le]
  · rw [if_neg (not_lt.2 h), min_eq_left h]

/-- Folding `max` from a raised start absorbs into a top-level `max`. -/
theorem foldl_max_absorb (f : Nat → Int) (l : List Nat) :
    ∀ b g : Int, List.foldl (fun a s => max a (f s)) (max b g) l
      = max g (List.foldl (fun a s => max a (f s)) b l) := by
  induction l with
  | nil => intro b g; exact max_comm b g
  | cons s rest ih =>
    intro b g
    show List.foldl _ (max (max b g) (f s)) rest
      = max g (List.foldl _ (max b (f s)) rest)
    rw [show max (max b g) (f s) = max (max b (f s)) g from by
        rw [max_assoc, max_comm g (f s), ← max_assoc], ih]

/-- Folding `min` from a lowered start absorbs into a top-level `min`. -/
theorem foldl_min_absorb (f : Nat → Int) (l : List Nat) :
    ∀ b g : Int, List.foldl (fun a s => min a (f s)) (min b g) l
      = min g (List.foldl (fun a s => min a (f s)) b l) := by
  induction l with
  | nil => intro b g; exact min_comm b g
  | cons s rest ih =>
    intro b g
    show List.foldl _ (min (min b g) (f s)) rest
      = min g (List.foldl _ (min b (f s)) rest)
    rw [show min (min b g) (f s) = min (min b (f s)) g from by
        rw [min_assoc, min_comm g (f s), ← min_assoc], ih]

/-- Score of the unpruned loop, maximizing branch: a fold of `max`. -/
theorem specLoop_score_max (recS : List String → String → MMResult)
    (cp hp player : String) (hpl : (player == cp) = true) (board : List String) :
    ∀ (slots : List Nat) (bm : MMResult) (bs : Int), bm.score = bs →
      (specLoop recS cp hp player slots board bm bs).score
        = List.foldl (fun a s => max a ((recS (board.set s player) hp).score)) bs slots := by
  intro slots
  induction slots with
  | nil => intro bm bs hbm; exact hbm
  | cons slot rest ih =>
    intro bm bs hbm
    simp only [specLoop, hpl, if_true, List.foldl_cons]
    rw [← ite_gt_eq_max ((recS (board.set slot player) hp).score) bs]
    apply ih
    by_cases h : (recS (board.set slot player) hp).score > bs <;> simp [h, hbm]

/-- Score of the unpruned loop, minimizing branch: a fold of `min`. -/
theorem specLoop_score_min (recS : List String → String → MMResult)
    (cp hp player : String) (hpl : (player == cp) = false) (board : List String) :
    ∀ (slots : List Nat) (bm : MMResult) (bs : Int), bm.score = bs →
      (specLoop recS cp hp player slots board bm bs).score
        = List.foldl (fun a s => min a ((recS (board.set s player) cp).score)) bs slots := by
  intro slots
  induction slots with
  | nil => intro bm bs hbm; exact hbm
  | cons slot rest ih =>
    intro bm bs hbm
    simp only [specLoop, hpl, if_false, Bool.false_eq_true, List.foldl_cons]
    rw [← ite_lt_eq_min ((recS (board.set slot player) cp).score) bs]
    apply ih
    by_cases h : (recS (board.set slot player) cp).score < bs <;> simp [h, hbm]

/-- Fail-soft alpha-beta bounds for the pruned candidate loop against the
fold of the unpruned child values, maximizing branch. -/
theorem kmLoop_max (recP : List String → String → Int → Int → MMResult)
    (recS : List String → String → MMResult)
    (cp hp player : String) (hpl : (player == cp) = true) (board : List String) :
    ∀ (slots : List Nat) (bm : MMResult) (bs alpha beta : Int),
      bm.score = bs → bs ≤ alpha → -1000 ≤ alpha → beta ≤ 1000 → alpha < beta →
      (∀ s ∈ slots, ∀ a b : Int, -1000 ≤ a → b ≤ 1000 → a < b →
        ((recP (board.set s player) hp a b).score ≤ a →
          (recS (board.set s player) hp).score ≤ (recP (board.set s player) hp a b).score) ∧
        (b ≤ (recP (board.set s player) hp a b).score →
          (recP (board.set s player) hp a b).score ≤ (recS (board.set s player) hp).score) ∧
        (a < (recP (board.set s player) hp a b).score →
          (recP (board.set s player) hp a b).score < b →
          (recP (board.set s player) hp a b).score = (recS (board.set s player) hp).score)) →
      bs ≤ (pureLoop recP cp hp player slots board bm bs alpha beta).score ∧
      ((pureLoop recP cp hp player slots board bm bs alpha beta).score ≤ alpha →
        List.foldl (fun a s => max a ((recS (board.set s player) hp).score)) bs slots
          ≤ (pureLoop recP cp hp player slots board bm bs alpha beta).score) ∧
      (beta ≤ (pureLoop recP cp hp player slots board bm bs alpha beta).score →
        (pureLoop recP cp hp player slots board bm bs alpha beta).score
          ≤ List.foldl (fun a s => max a ((recS (board.set s player) hp).score)) bs slots) ∧
      (alpha < (pureLoop recP cp hp player slots board bm bs alpha beta).score →
        (pureLoop recP cp hp player slots board bm bs alpha beta).score < beta →
        (pureLoop recP cp hp player slots board bm bs alpha beta).score
          = List.foldl (fun a s => max a ((recS (board.set s player) hp).score)) bs slots) := by
  intro slots
  induction slots with
  | nil =>
    intro bm bs alpha beta hbm _ _ _ _ _
    have hr : pureLoop recP cp hp player [] board bm bs alpha beta = bm := rfl
    rw [hr, hbm]
    exact ⟨le_refl bs, fun _ => le_refl bs, fun _ => le_refl bs, fun _ _ => rfl⟩
  | cons slot rest ih =>
    intro bm bs alpha beta hbm hbs hA hB hab hrec
    obtain ⟨hcA, hcB, hcC⟩ := hrec slot (by simp) alpha beta hA hB hab
    simp only [pureLoop, hpl, if_true, List.foldl_cons]
    rw [ite_gt_eq_max ((recP (board.set slot player) hp alpha beta).score) bs]
    set g := (recP (board.set slot player) hp alpha beta).score with hgdef
    set f := (recS (board.set slot player) hp).score with hfdef
    set T := List.foldl (fun a s => max a ((recS (board.set s player) hp).score)) bs rest
      with hTdef
    have hbm1 : (if g > bs then (⟨some slot, g⟩ : MMResult) else bm).score = max bs g := by
      by_cases h : g > bs
      · simp [h, max_eq_right h.le]
      · simp [h, hbm, max_eq_left (not_lt.1 h)]
    have habsorb : List.foldl (fun a s => max a ((recS (board.set s player) hp).score))
        (max bs f) rest = max f T := foldl_max_absorb _ rest bs f
    rw [habsorb]
    by_cases hpr : beta ≤ max alpha (max bs g)
    · simp only [hpr, if_true]
      rw [hbm1]
      have hαG : alpha < max bs g := by
        rcases max_cases alpha (max bs g) with ⟨he, hle⟩ | ⟨he, hlt⟩
        · rw [he] at hpr; exact absurd hpr (not_le.2 hab)
        · exact hlt
      have hGg : max bs g = g := by
        rcases max_cases bs g with ⟨he, _⟩ | ⟨he, _⟩
        · rw [he] at hαG; exact absurd hαG (not_lt.2 hbs)
        · exact he
      refine ⟨le_max_left bs g, fun h => absurd h (not_le.2 hαG), fun h => ?_,
        fun _ h2 => ?_⟩
      · rw [hGg] at h ⊢
        exact le_trans (hcB h) (le_max_left f T)
      · exfalso
        rw [max_eq_right hαG.le] at hpr
        exact absurd h2 (not_lt.2 hpr)
    · simp only [hpr, if_false]
      have hα1β : max alpha (max bs g) < beta := not_le.1 hpr
      obtain ⟨d', a', b', c'⟩ := ih (if g > bs then ⟨some slot, g⟩ else bm) (max bs g)
        (max alpha (max bs g)) beta hbm1 (le_max_right _ _)
        (le_trans hA (le_max_left _ _)) hB hα1β
        (fun s hs a b h1 h2 h3 => hrec s (by simp [hs]) a b h1 h2 h3)
      rw [foldl_max_absorb _ rest bs g] at a' b' c'
      set G := (pureLoop recP cp hp player rest board
        (if g > bs then ⟨some slot, g⟩ else bm) (max bs g)
        (max alpha (max bs g)) beta).score with hGdef
      refine ⟨le_trans (le_max_left bs g) d', fun h => ?_, fun h => ?_, fun h1 h2 => ?_⟩
      · have hM1 := a' (le_trans h (le_max_left _ _))
        have hgα : g ≤ alpha := le_trans (le_trans (le_max_left g T) hM1) h
        exact le_trans (max_le_max (hcA hgα) (le_refl T)) hM1
      · have hM1 := b' h
        rcases le_total g T with h1 | h1
        · rw [max_eq_right h1] at hM1
          exact le_trans hM1 (le_max_right f T)
        · rw [max_eq_left h1] at hM1
          exact le_trans (le_trans hM1 (hcB (le_trans h hM1))) (le_max_left f T)
      · rcases lt_or_le (max alpha (max bs g)) G with hcase | hcase
        · have hG := c' hcase h2
          rcases le_or_lt g alpha with hga | hga
          · have hfg := hcA hga
            have hgG : g < G := lt_of_le_of_lt hga h1
            have hT : max g T = T := by
              rcases max_cases g T with ⟨he, _⟩ | ⟨he, _⟩
              · rw [he] at hG
                rw [hG] at hgG
                exact absurd hgG (lt_irrefl g)
              · exact he
            have hgT : g < T := by
              rw [hT] at hG
              rw [hG] at hgG
              exact hgG
            rw [hG, hT, max_eq_right (le_trans hfg hgT.le)]
          · have hgle : g ≤ G := hG ▸ le_max_left g T
            have hgf := hcC hga (lt_of_le_of_lt hgle h2)
            rw [hG, ← hgf]
        · have hM1 := a' hcase
          have hGbs : G ≤ max bs g := by
            rcases max_cases alpha (max bs g) with ⟨he, _⟩ | ⟨he, _⟩
            · rw [he] at hcase
              exact absurd h1 (not_lt.2 hcase)
            · rw [he] at hcase
              exact hcase
          have hGeq : G = max bs g := le_antisymm hGbs d'
          have hbsG : bs < G := lt_of_le_of_lt hbs h1
          have hgeq : max bs g = g := by
            rcases max_cases bs g with ⟨he, _⟩ | ⟨he, _⟩
            · rw [he] at hGeq
              rw [hGeq] at hbsG
              exact absurd hbsG (lt_irrefl bs)
            · exact he
          have hGg : G = g := by rw [hGeq, hgeq]
          have hgf := hcC (hGg ▸ h1) (hGg ▸ h2)
          have hTG : T ≤ G := le_trans (le_max_right g T) hM1
          rw [hGg] at hTG
          rw [hGg, ← hgf]
          exact (max_eq_left hTG).symm

/-- Fail-soft alpha-beta bounds for the pruned candidate loop against the
fold of the unpruned child values, minimizing branch. -/
theorem kmLoop_min (recP : List String → String → Int → Int → MMResult)
    (recS : List String → String → MMResult)
    (cp hp player : String) (hpl : (player == cp) = false) (board : List String) :
    ∀ (slots : List Nat) (bm : MMResult) (bs alpha beta : Int),
      bm.score = bs → beta ≤ bs → -1000 ≤ alpha → beta ≤ 1000 → alpha < beta →
      (∀ s ∈ slots, ∀ a b : Int, -1000 ≤ a → b ≤ 1000 → a < b →
        ((recP (board.set s player) cp a b).score ≤ a →
          (recS (board.set s player) cp).score ≤ (recP (board.set s player) cp a b).score) ∧
        (b ≤ (recP (board.set s player) cp a b).score →
          (recP (board.set s player) cp a b).score ≤ (recS (board.set s player) cp).score) ∧
        (a < (recP (board.set s player) cp a b).score →
          (recP (board.set s player) cp a b).score < b →
          (recP (board.set s player) cp a b).score = (recS (board.set s player) cp).score)) →
      (pureLoop recP cp hp player slots board bm bs alpha beta).score ≤ bs ∧
      ((pureLoop recP cp hp player slots board bm bs alpha beta).score ≤ alpha →
        List.foldl (fun a s => min a ((recS (board.set s player) cp).score)) bs slots
          ≤ (pureLoop recP cp hp player slots board bm bs alpha beta).score) ∧
      (beta ≤ (pureLoop recP cp hp player slots board bm bs alpha beta).score →
        (pureLoop recP cp hp player slots board bm bs alpha beta).score
          ≤ List.foldl (fun a s => min a ((recS (board.set s player) cp).score)) bs slots) ∧
      (alpha < (pureLoop recP cp hp player slots board bm bs alpha beta).score →
        (pureLoop recP cp hp player slots board bm bs alpha beta).score < beta →
        (pureLoop recP cp hp player slots board bm bs alpha beta).score
          = List.foldl (fun a s => min a ((recS (board.set s player) cp).score)) bs slots) := by
  intro slots
  induction slots with
  | nil =>
    intro bm bs alpha beta hbm _ _ _ _ _
    have hr : pureLoop recP cp hp player [] board bm bs alpha beta = bm := rfl
    rw [hr, hbm]
    exact ⟨le_refl bs, fun _ => le_refl bs, fun _ => le_refl bs, fun _ _ => rfl⟩
  | cons slot rest ih =>
    intro bm bs alpha beta hbm hbs hA hB hab hrec
    obtain ⟨hcA, hcB, hcC⟩ := hrec slot (by simp) alpha beta hA hB hab
    simp only [pureLoop, hpl, if_false, Bool.false_eq_true, List.foldl_cons]
    rw [ite_lt_eq_min ((recP (board.set slot player) cp alpha beta).score) bs]
    set g := (recP (board.set slot player) cp alpha beta).score with hgdef
    set f := (recS (board.set slot player) cp).score with hfdef
    set T := List.foldl (fun a s => min a ((recS (board.set s player) cp).score)) bs rest
      with hTdef
    have hbm1 : (if g < bs then (⟨some slot, g⟩ : MMResult) else bm).score = min bs g := by
      by_cases h : g < bs
      · simp [h, min_eq_right h.le]
      · simp [h, hbm, min_eq_left (not_lt.1 h)]
    have habsorb : List.foldl (fun a s => min a ((recS (board.set s player) cp).score))
        (min bs f) rest = min f T := foldl_min_absorb _ rest bs f
    rw [habsorb]
    by_cases hpr : min beta (min bs g) ≤ alpha
    · simp only [hpr, if_true]
      rw [hbm1]
      have hGβ : min bs g < beta := by
        rcases min_cases beta (min bs g) with ⟨he, _⟩ | ⟨he, hlt⟩
        · rw [he] at hpr; exact absurd hpr (not_le.2 hab)
        · exact hlt
      have hGg : min bs g = g := by
        rcases min_cases bs g with ⟨he, _⟩ | ⟨he, _⟩
        · rw [he] at hGβ; exact absurd hGβ (not_lt.2 hbs)
        · exact he
      refine ⟨min_le_left bs g, fun h => ?_, fun h => absurd h (not_le.2 hGβ),
        fun h1 _ => ?_⟩
      · rw [hGg] at h ⊢
        exact le_trans (min_le_left f T) (hcA h)
      · exfalso
        rw [min_eq_right hGβ.le] at hpr
        exact absurd h1 (not_lt.2 hpr)
    · simp only [hpr, if_false]
      have hαβ1 : alpha < min beta (min bs g) := not_le.1 hpr
      obtain ⟨d', a', b', c'⟩ := ih (if g < bs then ⟨some slot, g⟩ else bm) (min bs g)
        alpha (min beta (min bs g)) hbm1 (min_le_right _ _)
        hA (le_trans (min_le_left _ _) hB) hαβ1
        (fun s hs a b h1 h2 h3 => hrec s (by simp [hs]) a b h1 h2 h3)
      rw [foldl_min_absorb _ rest bs g] at a' b' c'
      set G := (pureLoop recP cp hp player rest board
        (if g < bs then ⟨some slot, g⟩ else bm) (min bs g)
        alpha (min beta (min bs g))).score with hGdef
      refine ⟨le_trans d' (min_le_left bs g), fun h => ?_, fun h => ?_, fun h1 h2 => ?_⟩
      · have hM1 := a' h
        rcases le_total g T with h1 | h1
        · rw [min_eq_left h1] at hM1
          have hfg := hcA (le_trans hM1 h)
          exact le_trans (min_le_left f T) (le_trans hfg hM1)
        · rw [min_eq_right h1] at hM1
          exact le_trans (min_le_right f T) hM1
      · have hβ1G : min beta (min bs g) ≤ G := le_trans (min_le_left _ _) h
        have hM1 := b' hβ1G
        have hGg : G ≤ g := le_trans d' (min_le_right bs g)
        have hgf := hcB (le_trans h hGg)
        exact le_min (le_trans hGg hgf) (le_trans hM1 (min_le_right g T))
      · rcases lt_or_le G (min beta (min bs g)) with hcase | hcase
        · have hG := c' h1 hcase
          rcases le_or_lt beta g with hgb | hgb
          · have hgf := hcB hgb
            have hGg : G < g := lt_of_lt_of_le h2 hgb
            have hT : min g T = T := by
              rcases min_cases g T with ⟨he, _⟩ | ⟨he, _⟩
              · rw [he] at hG
                rw [hG] at hGg
                exact absurd hGg (lt_irrefl g)
              · exact he
            have hTg : T < g := by
              rw [hT] at hG
              rw [hG] at hGg
              exact hGg
            rw [hG, hT, min_eq_right (le_trans hTg.le hgf)]
          · have hgle : G ≤ g := hG ▸ min_le_left g T
            have hgf := hcC (lt_of_lt_of_le h1 hgle) hgb
            rw [hG, ← hgf]
        · have hGbs : min bs g ≤ G := by
            rcases min_cases beta (min bs g) with ⟨he, _⟩ | ⟨he, _⟩
            · rw [he] at hcase
              exact absurd h2 (not_lt.2 hcase)
            · rw [he] at hcase
              exact hcase
          have hGeq : G = min bs g := le_antisymm d' hGbs
          have hGβ : G < bs := lt_of_lt_of_le h2 hbs
          have hgeq : min bs g = g := by
            rcases min_cases bs g with ⟨he, _⟩ | ⟨he, _⟩
            · rw [he] at hGeq
              rw [hGeq] at hGβ
              exact absurd hGβ (lt_irrefl bs)
            · exact he
          have hGg : G = g := by rw [hGeq, hgeq]
          have hgf := hcC (hGg ▸ h1) (hGg ▸ h2)
          have hM1 := b' hcase
          have hTG : G ≤ T := le_trans hM1 (min_le_right g T)
          rw [hGg] at hTG
          rw [hGg, ← hgf]
          exact (min_eq_left hTG).symm

/-- Knuth-Moore fail-soft property of the pruned search against the
unpruned reference: the pruned score is exact strictly inside the window,
an upper bound of the true value when failing low, a lower bound when
failing high. -/
theorem km_node (cp hp : String) (hcp : cp ≠ "") (hhp : hp ≠ "") :
    ∀ (fuel : Nat) (board : List String) (player : String) (alpha beta : Int),
      (player = cp ∨ player = hp) → emptyCount board ≤ fuel →
      -1000 ≤ alpha → beta ≤ 1000 → alpha < beta →
      ((pureMinimax cp hp fuel board player alpha beta).score ≤ alpha →
        (specMinimax cp hp fuel board player).score
          ≤ (pureMinimax cp hp fuel board player alpha beta).score) ∧
      (beta ≤ (pureMinimax cp hp fuel board player alpha beta).score →
        (pureMinimax cp hp fuel board player alpha beta).score
          ≤ (specMinimax cp hp fuel board player).score) ∧
      (alpha < (pureMinimax cp hp fuel board player alpha beta).score →
        (pureMinimax cp hp fuel board player alpha beta).score < beta →
        (pureMinimax cp hp fuel board player alpha beta).score
          = (specMinimax cp hp fuel board player).score) := by
  intro fuel
  induction fuel with
  | zero =>
    intro board player alpha beta _ _ _ _ _
    exact ⟨fun _ => le_refl _, fun _ => le_refl _, fun _ _ => rfl⟩
  | succ fuel ih =>
    intro board player alpha beta hplayer hfuel hA hB hab
    have hplayer_ne : player ≠ "" := by
      rcases hplayer with rfl | rfl <;> assumption
    rcases hres : isGameOver board with ⟨p, l⟩ | _ | slots
    · simp only [pureMinimax, specMinimax, hres]
      exact ⟨fun _ => le_refl _, fun _ => le_refl _, fun _ _ => trivial⟩
    · simp only [pureMinimax, specMinimax, hres]
      exact ⟨fun _ => le_refl _, fun _ => le_refl _, fun _ _ => trivial⟩
    · have hslots_avail := cont_slots_eq hres
      have hfuel1 : ∀ s ∈ slots, emptyCount (board.set s player) ≤ fuel := by
        intro s hs
        have hsm := mem_getAvailableSlots.1 (hslots_avail ▸ hs)
        have hec := emptyCount_set hsm.1 hsm.2 hplayer_ne
        omega
      simp only [pureMinimax, specMinimax, hres]
      by_cases hpl : (player == cp) = true
      · simp only [hpl, if_true]
        rw [specLoop_score_max (specMinimax cp hp fuel) cp hp player hpl board slots
          ⟨none, MIN⟩ MIN rfl]
        exact (kmLoop_max (pureMinimax cp hp fuel) (specMinimax cp hp fuel) cp hp player
          hpl board slots ⟨none, MIN⟩ MIN alpha beta rfl hA hA hB hab
          (fun s hs a b h1 h2 h3 =>
            ih (board.set s player) hp a b (Or.inr rfl) (hfuel1 s hs) h1 h2 h3)).2
      · have hpl2 : (player == cp) = false := by
          rw [Bool.eq_false_iff]; exact hpl
        simp only [hpl2, if_false, Bool.false_eq_true]
        rw [specLoop_score_min (specMinimax cp hp fuel) cp hp player hpl2 board slots
          ⟨none, MAX⟩ MAX rfl]
        exact (kmLoop_min (pureMinimax cp hp fuel) (specMinimax cp hp fuel) cp hp player
          hpl2 board slots ⟨none, MAX⟩ MAX alpha beta rfl hB hA hB hab
          (fun s hs a b h1 h2 h3 =>
            ih (board.set s player) cp a b (Or.inl rfl) (hfuel1 s hs) h1 h2 h3)).2

/-- With the full sentinel window the pruned loop's state evolves exactly
like the unpruned loop's state, maximizing branch. -/
theorem rootLoop_max (recP : List String → String → Int → Int → MMResult)
    (recS : List String → String → MMResult)
    (cp hp player : String) (hpl : (player == cp) = true) (board : List String) :
    ∀ (slots : List Nat) (bm : MMResult) (bs alpha : Int),
      bm.score = bs → alpha = max (-1000) bs →
      (bs = -1000 ∨ (-10 ≤ bs ∧ bs ≤ 10)) →
      (∀ s ∈ slots, ∀ a b : Int, -1000 ≤ a → b ≤ 1000 → a < b →
        (-10 ≤ (recP (board.set s player) hp a b).score ∧
          (recP (board.set s player) hp a b).score ≤ 10) ∧
        (a < (recP (board.set s player) hp a b).score →
          (recP (board.set s player) hp a b).score < b →
          (recP (board.set s player) hp a b).score = (recS (board.set s player) hp).score) ∧
        ((recP (board.set s player) hp a b).score ≤ a →
          (recS (board.set s player) hp).score ≤ (recP (board.set s player) hp a b).score)) →
      pureLoop recP cp hp player slots board bm bs alpha 1000
        = specLoop recS cp hp player slots board bm bs := by
  intro slots
  induction slots with
  | nil => intros; rfl
  | cons slot rest ih =>
    intro bm bs alpha hbm hα hbs hrec
    have hA : -1000 ≤ alpha := by rw [hα]; exact le_max_left _ _
    have hα10 : alpha ≤ 10 := by
      rcases hbs with rfl | ⟨h1, h2⟩
      · rw [hα, max_self]; norm_num
      · rw [hα, max_eq_right (by omega : (-1000:Int) ≤ bs)]; exact h2
    have hab : alpha < 1000 := by omega
    obtain ⟨⟨hglo, hghi⟩, hcC, hcA⟩ := hrec slot (by simp) alpha 1000 hA (le_refl _) hab
    simp only [pureLoop, specLoop, hpl, if_true]
    set g := (recP (board.set slot player) hp alpha 1000).score with hgdef
    set f := (recS (board.set slot player) hp).score with hfdef
    by_cases hup : g > bs
    · have hgα : alpha < g := by
        rcases hbs with rfl | ⟨h1, h2⟩
        · rw [hα, max_self]; omega
        · rw [hα, max_eq_right (by omega : (-1000:Int) ≤ bs)]; omega
      have hgf : g = f := hcC hgα (by omega)
      have hupf : f > bs := hgf ▸ hup
      simp only [hup, hupf, if_true]
      have hnp : ¬ (1000 ≤ max alpha g) := by
        rcases max_cases alpha g with ⟨he, _⟩ | ⟨he, _⟩ <;> rw [he] <;> omega
      simp only [hnp, if_false]
      rw [← hgf]
      have hα1 : max alpha g = max (-1000) g := by
        rcases hbs with rfl | ⟨h1, h2⟩
        · rw [hα, max_self]
        · rw [hα, max_eq_right (by omega : (-1000:Int) ≤ bs),
            max_eq_right (by omega : bs ≤ g), max_eq_right (by omega : (-1000:Int) ≤ g)]
      rw [hα1]
      exact ih ⟨some slot, g⟩ g (max (-1000) g) rfl rfl (Or.inr ⟨hglo, hghi⟩)
        (fun s hs a b h1 h2 h3 => hrec s (by simp [hs]) a b h1 h2 h3)
    · have hfbs : ¬ (f > bs) := by
        intro hf
        have hgα : g ≤ alpha := by
          rcases hbs with rfl | ⟨h1, h2⟩
          · exfalso; have := not_lt.1 hup; omega
          · rw [hα, max_eq_right (by omega : (-1000:Int) ≤ bs)]; exact not_lt.1 hup
        have h1 := hcA hgα
        have h2 := not_lt.1 hup
        omega
      simp only [hup, hfbs, if_false]
      have hα1 : max alpha bs = alpha := by
        rw [hα, max_assoc, max_self]
      have hnp : ¬ (1000 ≤ max alpha bs) := by rw [hα1]; omega
      simp only [hnp, if_false]
      rw [hα1]
      exact ih bm bs alpha hbm hα hbs
        (fun s hs a b h1 h2 h3 => hrec s (by simp [hs]) a b h1 h2 h3)

/-- With the full sentinel window the pruned loop's state evolves exactly
like the unpruned loop's state, minimizing branch. -/
theorem rootLoop_min (recP : List String → String → Int → Int → MMResult)
    (recS : List String → String → MMResult)
    (cp hp player : String) (hpl : (player == cp) = false) (board : List String) :
    ∀ (slots : List Nat) (bm : MMResult) (bs beta : Int),
      bm.score = bs → beta = min 1000 bs →
      (bs = 1000 ∨ (-10 ≤ bs ∧ bs ≤ 10)) →
      (∀ s ∈ slots, ∀ a b : Int, -1000 ≤ a → b ≤ 1000 → a < b →
        (-10 ≤ (recP (board.set s player) cp a b).score ∧
          (recP (board.set s player) cp a b).score ≤ 10) ∧
        (a < (recP (board.set s player) cp a b).score →
          (recP (board.set s player) cp a b).score < b →
          (recP (board.set s player) cp a b).score = (recS (board.set s player) cp).score) ∧
        (b ≤ (recP (board.set s player) cp a b).score →
          (recP (board.set s player) cp a b).score ≤ (recS (board.set s player) cp).score)) →
      pureLoop recP cp hp player slots board bm bs (-1000) beta
        = specLoop recS cp hp player slots board bm bs := by
  intro slots
  induction slots with
  | nil => intros; rfl
  | cons slot rest ih =>
    intro bm bs beta hbm hβ hbs hrec
    have hB : beta ≤ 1000 := by rw [hβ]; exact min_le_left _ _
    have hβ10 : -10 ≤ beta := by
      rcases hbs with rfl | ⟨h1, h2⟩
      · rw [hβ, min_self]; norm_num
      · rw [hβ, min_eq_right (by omega : bs ≤ (1000:Int))]; exact h1
    have hab : (-1000 : Int) < beta := by omega
    obtain ⟨⟨hglo, hghi⟩, hcC, hcB⟩ := hrec slot (by simp) (-1000) beta (le_refl _) hB hab
    simp only [pureLoop, specLoop, hpl, if_false, Bool.false_eq_true]
    set g := (recP (board.set slot player) cp (-1000) beta).score with hgdef
    set f := (recS (board.set slot player) cp).score with hfdef
    by_cases hup : g < bs
    · have hgβ : g < beta := by
        rcases hbs with rfl | ⟨h1, h2⟩
        · rw [hβ, min_self]; omega
        · rw [hβ, min_eq_right (by omega : bs ≤ (1000:Int))]; omega
      have hgf : g = f := hcC (by omega) hgβ
      have hupf : f < bs := hgf ▸ hup
      simp only [hup, hupf, if_true]
      have hnp : ¬ (min beta g ≤ -1000) := by
        rcases min_cases beta g with ⟨he, _⟩ | ⟨he, _⟩ <;> rw [he] <;> omega
      simp only [hnp, if_false]
      rw [← hgf]
      have hβ1 : min beta g = min 1000 g := by
        rcases hbs with rfl | ⟨h1, h2⟩
        · rw [hβ, min_self]
        · rw [hβ, min_eq_right (by omega : bs ≤ (1000:Int)),
            min_eq_right (by omega : g ≤ bs), min_eq_right (by omega : g ≤ (1000:Int))]
      rw [hβ1]
      exact ih ⟨some slot, g⟩ g (min 1000 g) rfl rfl (Or.inr ⟨hglo, hghi⟩)
        (fun s hs a b h1 h2 h3 => hrec s (by simp [hs]) a b h1 h2 h3)
    · have hfbs : ¬ (f < bs) := by
        intro hf
        have hgβ : beta ≤ g := by
          rcases hbs with rfl | ⟨h1, h2⟩
          · exfalso; have := not_lt.1 hup; omega
          · rw [hβ, min_eq_right (by omega : bs ≤ (1000:Int))]; exact not_lt.1 hup
        have h1 := hcB hgβ
        have h2 := not_lt.1 hup
        omega
      simp only [hup, hfbs, if_false]
      have hβ1 : min beta bs = beta := by
        rw [hβ, min_assoc, min_self]
      have hnp : ¬ (min beta bs ≤ -1000) := by rw [hβ1]; omega
      simp only [hnp, if_false]
      rw [hβ1]
      exact ih bm bs beta hbm hβ hbs
        (fun s hs a b h1 h2 h3 => hrec s (by simp [hs]) a b h1 h2 h3)

/-- With the full sentinel window, the pruned search returns exactly the
unpruned reference's result: same score and same (first-best, lowest-index)
slot. -/
theorem root_eq (cp hp : String) (hcp : cp ≠ "") (hhp : hp ≠ "") :
    ∀ (fuel : Nat) (board : List String) (player : String),
      (player = cp ∨ player = hp) → emptyCount board ≤ fuel →
      pureMinimax cp hp fuel board player (-1000) 1000
        = specMinimax cp hp fuel board player := by
  intro fuel
  induction fuel with
  | zero => intros; rfl
  | succ fuel ih =>
    intro board player hplayer hfuel
    have hplayer_ne : player ≠ "" := by
      rcases hplayer with rfl | rfl <;> assumption
    rcases hres : isGameOver board with ⟨p, l⟩ | _ | slots
    · simp only [pureMinimax, specMinimax, hres]
    · simp only [pureMinimax, specMinimax, hres]
    · have hslots_avail := cont_slots_eq hres
      have hfuel1 : ∀ s ∈ slots, emptyCount (board.set s player) ≤ fuel := by
        intro s hs
        have hsm := mem_getAvailableSlots.1 (hslots_avail ▸ hs)
        have hec := emptyCount_set hsm.1 hsm.2 hplayer_ne
        omega
      have hchild : ∀ (s : Nat), s ∈ slots → ∀ (q : String), (q = cp ∨ q = hp) →
          ∀ a b : Int, -1000 ≤ a → b ≤ 1000 → a < b →
          ((-10 ≤ (pureMinimax cp hp fuel (board.set s player) q a b).score ∧
            (pureMinimax cp hp fuel (board.set s player) q a b).score ≤ 10) ∧
          (a < (pureMinimax cp hp fuel (board.set s player) q a b).score →
            (pureMinimax cp hp fuel (board.set s player) q a b).score < b →
            (pureMinimax cp hp fuel (board.set s player) q a b).score
              = (specMinimax cp hp fuel (board.set s player) q).score) ∧
          ((pureMinimax cp hp fuel (board.set s player) q a b).score ≤ a →
            (specMinimax cp hp fuel (board.set s player) q).score
              ≤ (pureMinimax cp hp fuel (board.set s player) q a b).score) ∧
          (b ≤ (pureMinimax cp hp fuel (board.set s player) q a b).score →
            (pureMinimax cp hp fuel (board.set s player) q a b).score
              ≤ (specMinimax cp hp fuel (board.set s player) q).score)) := by
        intro s hs q hq a b h1 h2 h3
        have hrange := (pureMinimax_inv cp hp hcp hhp fuel (board.set s player) q a b
          hq (hfuel1 s hs) h3).1
        have hkm := km_node cp hp hcp hhp fuel (board.set s player) q a b
          hq (hfuel1 s hs) h1 h2 h3
        exact ⟨hrange, fun u v => (hkm.2.2 u v).symm ▸ rfl, hkm.1, hkm.2.1⟩
      simp only [pureMinimax, specMinimax, hres]
      by_cases hpl : (player == cp) = true
      · simp only [hpl, if_true]
        exact rootLoop_max (pureMinimax cp hp fuel) (specMinimax cp hp fuel) cp hp player
          hpl board slots ⟨none, MIN⟩ MIN (-1000) rfl (by decide) (Or.inl rfl)
          (fun s hs a b h1 h2 h3 =>
            ⟨(hchild s hs hp (Or.inr rfl) a b h1 h2 h3).1,
             (hchild s hs hp (Or.inr rfl) a b h1 h2 h3).2.1,
             (hchild s hs hp (Or.inr rfl) a b h1 h2 h3).2.2.1⟩)
      · have hpl2 : (player == cp) = false := by
          rw [Bool.eq_false_iff]; exact hpl
        simp only [hpl2, if_false, Bool.false_eq_true]
        exact rootLoop_min (pureMinimax cp hp fuel) (specMinimax cp hp fuel) cp hp player
          hpl2 board slots ⟨none, MAX⟩ MAX 1000 rfl (by decide) (Or.inl rfl)
          (fun s hs a b h1 h2 h3 =>
            ⟨(hchild s hs cp (Or.inl rfl) a b h1 h2 h3).1,
             (hchild s hs cp (Or.inl rfl) a b h1 h2 h3).2.1,
             (hchild s hs cp (Or.inl rfl) a b h1 h2 h3).2.2.2⟩)

/-- C2: on every 9-cell position and engine player to move, the slot (and
score) chosen by the alpha-beta search with the sentinel window equals the
choice of the unpruned reference minimax that keeps the first
(lowest-index) best-scoring move: pruning never changes the chosen move and
the lowest-index tie-break is preserved. -/
theorem alphaBeta_eq_reference (board : List String) (player : String)
    (h9 : board.length = 9)
    (hplayer : player = computerPlayer ∨ player = humanPlayer) :
    (minimax computerPlayer humanPlayer 9 board player MIN MAX).1
      = specMinimax computerPlayer humanPlayer 9 board player := by
  rw [minimax_eq_pure]
  exact root_eq computerPlayer humanPlayer (by decide) (by decide) 9 board player hplayer
    (by have := emptyCount_le_length board; omega)

/-- Witness for C2 at a concrete position. -/
theorem alphaBeta_eq_reference_witness :
    (minimax computerPlayer humanPlayer 9 ["X", "X", "", "", "O", "O", "", "", ""]
      "X" MIN MAX).1
      = specMinimax computerPlayer humanPlayer 9 ["X", "X", "", "", "O", "O", "", "", ""]
        "X" :=
  alphaBeta_eq_reference ["X", "X", "", "", "O", "O", "", "", ""] "X" (by decide)
    (Or.inl rfl)

/-! ### Concrete witnesses for the hypothesised claims -/

/-- Witness for C4: playing the out-of-range slot 9 on a fresh game is
rejected as an invalid move and changes nothing. -/
theorem play_error_cases_witness :
    play initGame 9 "X" = (Except.error PlayError.invalidMove, initGame) :=
  (play_error_cases initGame 9 "X" rfl).2.1 rfl (Or.inr (Or.inl (by decide)))

/-- Witness for C5: playing slot 4 on a fresh game writes the mark there. -/
theorem play_frame_witness :
    (play initGame 4 "X").2.board.getD 4 "" = "X" :=
  (play_frame initGame 4 "X" rfl (by decide) (by decide)).2.1

/-- Witness for C7 on the fresh board. -/
theorem availableSlots_sorted_length_witness :
    List.Pairwise (· < ·) (getAvailableSlots initGame.board) ∧
    (getAvailableSlots initGame.board).length
      + initGame.board.countP (fun c => !(c == "")) = 9 :=
  availableSlots_sorted_length initGame.board rfl

/-- Witness for C9 on a board with a completed top row. -/
theorem win_classification_sound_witness :
    ∃ i j k, ([0, 1, 2] : List Nat) = [i, j, k] ∧ (i, j, k) ∈ LINES ∧
      (["X", "X", "X", "", "", "", "", "", ""] : List String).getD i "" = "X" ∧
      (["X", "X", "X", "", "", "", "", "", ""] : List String).getD j "" = "X" ∧
      (["X", "X", "X", "", "", "", "", "", ""] : List String).getD k "" = "X" ∧
      ("X" : String) ≠ "" :=
  win_classification_sound ["X", "X", "X", "", "", "", "", "", ""] "X" [0, 1, 2]
    (by decide)

/-- Witness for C10: playing the empty token leaves the fresh board as it
was. -/
theorem play_arbitrary_token_witness :
    (play initGame 0 "").2.board = initGame.board :=
  ((play_arbitrary_token initGame 0 "" rfl (by decide)).2.2 rfl).1

end TTT
